import Mathlib

/-!
# Verification of the license-manager core

A shallow embedding, in Lean 4, of the `license-manager` Go repository:
the key-derivation scheme (`pkg/crypto`), the AES-256-GCM authenticated
envelope, the serial-binding token generator, and the stateful license
validation engine (`pkg/license`).  Machine bytes are modelled as `Nat`
values below 256, byte strings as `List Nat`, and the on-disk state as a
partial map from file names to byte strings.  External effects (the
system clock, the `crypto/rand` random source, and the reflection-driven
`encoding/json` codec) enter as explicit parameters.

Theorems named `C1_…` to `C10_…` settle the frozen claims about the
specification; everything else is the embedding and its helper lemmas.
-/

set_option maxRecDepth 4000

namespace LicenseManager

/-! ## Byte-string utilities -/

/-- Big-endian interpretation of a byte string as a natural number. -/
def bytesToNat (bs : List Nat) : Nat :=
  bs.foldl (fun acc b => acc * 256 + b) 0

/-- Little-endian byte decomposition of `n` into `len` bytes. -/
def natToBytesAux : Nat → Nat → List Nat
  | 0, _ => []
  | len + 1, n => (n % 256) :: natToBytesAux len (n / 256)

/-- Big-endian encoding of `n` as exactly `len` bytes (higher bytes dropped). -/
def natToBytes (len n : Nat) : List Nat :=
  (natToBytesAux len n).reverse

/-- UTF-8 encoding of a single character, as Go's `[]byte(string)` produces. -/
def utf8EncodeChar (c : Char) : List Nat :=
  let n := c.toNat
  if n < 0x80 then [n]
  else if n < 0x800 then
    [0xC0 ||| (n >>> 6), 0x80 ||| (n &&& 0x3F)]
  else if n < 0x10000 then
    [0xE0 ||| (n >>> 12), 0x80 ||| ((n >>> 6) &&& 0x3F), 0x80 ||| (n &&& 0x3F)]
  else
    [0xF0 ||| (n >>> 18), 0x80 ||| ((n >>> 12) &&& 0x3F),
     0x80 ||| ((n >>> 6) &&& 0x3F), 0x80 ||| (n &&& 0x3F)]

/-- The byte string of a Go string: UTF-8 bytes of its characters. -/
def strBytes (s : String) : List Nat :=
  (s.data.map utf8EncodeChar).flatten

/-! ## SHA-256 (`crypto/sha256`)

Faithful executable model of the FIPS 180-4 SHA-256 function used by
`getMasterKey` / `NewCryptoManagerWithKey` (`sha256.Sum256`) and by the
PBKDF2/HMAC derivations.  32-bit words are `Nat` values reduced mod `2^32`.
-/

/-- 32-bit right rotation. -/
def rotr32 (n x : Nat) : Nat :=
  ((x >>> n) ||| (x <<< (32 - n))) % 4294967296

/-- The eight SHA-256 initial hash values. -/
def sha256IV : List Nat :=
  [1779033703, 3144134277, 1013904242, 2773480762,
   1359893119, 2600822924, 528734635, 1541459225]

/-- The sixty-four SHA-256 round constants. -/
def sha256K : List Nat :=
  [1116352408, 1899447441, 3049323471, 3921009573, 961987163,
   1508970993, 2453635748, 2870763221, 3624381080, 310598401,
   607225278, 1426881987, 1925078388, 2162078206, 2614888103,
   3248222580, 3835390401, 4022224774, 264347078, 604807628,
   770255983, 1249150122, 1555081692, 1996064986, 2554220882,
   2821834349, 2952996808, 3210313671, 3336571891, 3584528711,
   113926993, 338241895, 666307205, 773529912, 1294757372,
   1396182291, 1695183700, 1986661051, 2177026350, 2456956037,
   2730485921, 2820302411, 3259730800, 3345764771, 3516065817,
   3600352804, 4094571909, 275423344, 430227734, 506948616,
   659060556, 883997877, 958139571, 1322822218, 1537002063,
   1747873779, 1955562222, 2024104815, 2227730452, 2361852424,
   2428436474, 2756734187, 3204031479, 3329325298]

/-- SHA-256 padding: append `0x80`, zeros, and the 64-bit bit length. -/
def sha256Pad (msg : List Nat) : List Nat :=
  let l := msg.length
  let zeros := (119 - l % 64) % 64
  msg ++ [0x80] ++ List.replicate zeros 0 ++ natToBytes 8 (8 * l)

/-- Message schedule: expand sixteen words to sixty-four. -/
def sha256Schedule (ws : List Nat) : List Nat :=
  (List.range 48).foldl
    (fun w _ =>
      let i := w.length
      let s0 :=
        (rotr32 7 (w.getD (i - 15) 0)) ^^^ (rotr32 18 (w.getD (i - 15) 0)) ^^^
          ((w.getD (i - 15) 0) >>> 3)
      let s1 :=
        (rotr32 17 (w.getD (i - 2) 0)) ^^^ (rotr32 19 (w.getD (i - 2) 0)) ^^^
          ((w.getD (i - 2) 0) >>> 10)
      w ++ [(w.getD (i - 16) 0 + s0 + w.getD (i - 7) 0 + s1) % 4294967296])
    ws

/-- One SHA-256 compression step on the eight-word state. -/
def sha256Round (w : List Nat) (st : List Nat) (i : Nat) : List Nat :=
  let a := st.getD 0 0
  let b := st.getD 1 0
  let c := st.getD 2 0
  let d := st.getD 3 0
  let e := st.getD 4 0
  let f := st.getD 5 0
  let g := st.getD 6 0
  let h := st.getD 7 0
  let S1 := (rotr32 6 e) ^^^ (rotr32 11 e) ^^^ (rotr32 25 e)
  let ch := (e &&& f) ^^^ ((4294967295 - e) &&& g)
  let t1 := (h + S1 + ch + sha256K.getD i 0 + w.getD i 0) % 4294967296
  let S0 := (rotr32 2 a) ^^^ (rotr32 13 a) ^^^ (rotr32 22 a)
  let mj := (a &&& b) ^^^ (a &&& c) ^^^ (b &&& c)
  let t2 := (S0 + mj) % 4294967296
  [(t1 + t2) % 4294967296, a, b, c, (d + t1) % 4294967296, e, f, g]

/-- Compress one 64-byte block into the running hash state. -/
def sha256Block (hs : List Nat) (block : List Nat) : List Nat :=
  let ws := (List.range 16).map (fun i => bytesToNat ((block.drop (4 * i)).take 4))
  let w := sha256Schedule ws
  let st := (List.range 64).foldl (sha256Round w) hs
  (List.range 8).map (fun i => (hs.getD i 0 + st.getD i 0) % 4294967296)

/-- Split a list into chunks of `sz` elements (`sz > 0`; fuel-bounded). -/
def chunksAux (sz : Nat) : Nat → List Nat → List (List Nat)
  | 0, _ => []
  | _, [] => []
  | fuel + 1, l => l.take sz :: chunksAux sz fuel (l.drop sz)

/-- Split a byte string into chunks of `sz` bytes. -/
def chunks (sz : Nat) (l : List Nat) : List (List Nat) :=
  chunksAux sz l.length l

/-- `sha256.Sum256`: the 32-byte SHA-256 digest of a byte string. -/
def sha256 (msg : List Nat) : List Nat :=
  let hs := (chunks 64 (sha256Pad msg)).foldl sha256Block sha256IV
  ((List.range 8).map (fun i => natToBytes 4 (hs.getD i 0))).flatten

/-! ## HMAC-SHA256 and PBKDF2 (`golang.org/x/crypto/pbkdf2`)

Used by `DeriveSerialKey` / `DeriveEncryptionKey`.  These definitions are
executable but the claims never need their concrete values. -/

/-- Pointwise xor of a byte string with a constant pad byte. -/
def xorPad (pad : Nat) (bs : List Nat) : List Nat :=
  bs.map (fun b => b ^^^ pad)

/-- HMAC-SHA256 per RFC 2104 with a 64-byte block size. -/
def hmacSha256 (key msg : List Nat) : List Nat :=
  let k0 := if key.length > 64 then sha256 key else key
  let k1 := k0 ++ List.replicate (64 - k0.length) 0
  sha256 (xorPad 0x5c k1 ++ sha256 (xorPad 0x36 k1 ++ msg))

/-- One PBKDF2 block: iterated HMAC applications xor-folded together. -/
def pbkdf2Block (password salt : List Nat) (iter blockIdx : Nat) : List Nat :=
  let u1 := hmacSha256 password (salt ++ natToBytes 4 blockIdx)
  let step := fun (acc : List Nat × List Nat) (_ : Nat) =>
    let u' := hmacSha256 password acc.2
    (acc.1.zipWith (· ^^^ ·) u', u')
  ((List.range (iter - 1)).foldl step (u1, u1)).1

/-- `pbkdf2.Key(password, salt, iter, keyLen, sha256.New)`. -/
def pbkdf2Key (password salt : List Nat) (iter keyLen : Nat) : List Nat :=
  (((List.range ((keyLen + 31) / 32)).map
      (fun i => pbkdf2Block password salt iter (i + 1))).flatten).take keyLen

/-! ## CryptoManager (`pkg/crypto`) -/

/-- `CryptoManager` holds the (normalized) master key bytes. -/
structure CryptoManager where
  masterKey : List Nat
  deriving DecidableEq, Repr

/-- `NewCryptoManagerWithKey`: reject the empty master key, then hash the
key with SHA-256 — unconditionally — to obtain the 32-byte master key. -/
def NewCryptoManagerWithKey (masterKey : String) : Except String CryptoManager :=
  if masterKey = "" then .error "master key cannot be empty"
  else .ok { masterKey := sha256 (strBytes masterKey) }

/-- `deriveSalt`: SHA-256 of the domain constant, the purpose label, and
the master key bytes. -/
def deriveSalt (cm : CryptoManager) (purpose : String) : List Nat :=
  sha256 (strBytes "LICENSE_MANAGER_2025_" ++ strBytes purpose ++ cm.masterKey)

/-- `DeriveSerialKey`: PBKDF2 with 10000 iterations over the serial salt. -/
def DeriveSerialKey (cm : CryptoManager) : List Nat :=
  pbkdf2Key cm.masterKey (deriveSalt cm "SERIAL_KEY_DERIVATION") 10000 32

/-- `DeriveEncryptionKey`: PBKDF2 with 10000 iterations over the encryption salt. -/
def DeriveEncryptionKey (cm : CryptoManager) : List Nat :=
  pbkdf2Key cm.masterKey (deriveSalt cm "ENCRYPTION_KEY_DERIVATION") 10000 32

/-! ## Serial binding (`GenerateSerial`) -/

/-- Go `encoding/hex` digit table. -/
def hexTable : List Char := "0123456789abcdef".data

/-- `hex.EncodeToString`: two lowercase hex characters per byte. -/
def hexChars (bs : List Nat) : List Char :=
  (bs.map (fun b => [hexTable.getD (b >>> 4) '0', hexTable.getD (b &&& 0x0f) '0'])).flatten

/-- `hex.EncodeToString` as a string. -/
def hexStr (bs : List Nat) : String :=
  String.mk (hexChars bs)

/-- The serial-building loop of `GenerateSerial`: emit a `'-'` before every
character whose index is a positive multiple of five. -/
def dashEvery5 : Nat → List Char → List Char
  | _, [] => []
  | i, c :: rest =>
    (if i > 0 ∧ i % 5 = 0 then ['-'] else []) ++ c :: dashEvery5 (i + 1) rest

/-- `GenerateSerial(pcId, productName, maxDays)`: MD5 the canonical
`pcId|productName|maxDays|serialKeyHex` string, hex-encode, insert dashes,
truncate to 23 characters, upper-case.  `md5Sum` models `crypto/md5.Sum`,
which this embedding keeps abstract. -/
def GenerateSerial (md5Sum : List Nat → List Nat) (cm : CryptoManager)
    (pcId productName : String) (maxDays : Int) : String :=
  let serialKeyHex := hexStr (DeriveSerialKey cm)
  let data := pcId ++ "|" ++ productName ++ "|" ++ toString maxDays ++ "|" ++ serialKeyHex
  let hashStr := hexChars (md5Sum (strBytes data))
  String.mk (((dashEvery5 0 hashStr).take 23).map Char.toUpper)

/-- An upper-case hexadecimal character. -/
def isUpperHexDigit (c : Char) : Bool :=
  ("0123456789ABCDEF".data).contains c

/-- The serial-token shape claimed for `GenerateSerial`: 23 characters,
`'-'` exactly at indices 5, 11 and 17, upper-case hex elsewhere. -/
def serialFormatOK (s : String) : Bool :=
  s.data.length == 23 &&
    (List.range 23).all (fun i =>
      if i % 6 == 5 then s.data.getD i ' ' == '-'
      else isUpperHexDigit (s.data.getD i ' '))

/-! ## AES-256 (`crypto/aes`)

Executable model of the forward AES-256 block function (FIPS 197), the
cipher underlying the envelope.  Only the forward direction is needed:
GCM uses the block cipher in counter mode for both sealing and opening. -/

/-- The AES S-box (FIPS 197, figure 7). -/
def sBox : List Nat :=
  [0x63, 0x7c, 0x77, 0x7b, 0xf2, 0x6b, 0x6f, 0xc5, 0x30, 0x01, 0x67, 0x2b, 0xfe, 0xd7, 0xab, 0x76,
   0xca, 0x82, 0xc9, 0x7d, 0xfa, 0x59, 0x47, 0xf0, 0xad, 0xd4, 0xa2, 0xaf, 0x9c, 0xa4, 0x72, 0xc0,
   0xb7, 0xfd, 0x93, 0x26, 0x36, 0x3f, 0xf7, 0xcc, 0x34, 0xa5, 0xe5, 0xf1, 0x71, 0xd8, 0x31, 0x15,
   0x04, 0xc7, 0x23, 0xc3, 0x18, 0x96, 0x05, 0x9a, 0x07, 0x12, 0x80, 0xe2, 0xeb, 0x27, 0xb2, 0x75,
   0x09, 0x83, 0x2c, 0x1a, 0x1b, 0x6e, 0x5a, 0xa0, 0x52, 0x3b, 0xd6, 0xb3, 0x29, 0xe3, 0x2f, 0x84,
   0x53, 0xd1, 0x00, 0xed, 0x20, 0xfc, 0xb1, 0x5b, 0x6a, 0xcb, 0xbe, 0x39, 0x4a, 0x4c, 0x58, 0xcf,
   0xd0, 0xef, 0xaa, 0xfb, 0x43, 0x4d, 0x33, 0x85, 0x45, 0xf9, 0x02, 0x7f, 0x50, 0x3c, 0x9f, 0xa8,
   0x51, 0xa3, 0x40, 0x8f, 0x92, 0x9d, 0x38, 0xf5, 0xbc, 0xb6, 0xda, 0x21, 0x10, 0xff, 0xf3, 0xd2,
   0xcd, 0x0c, 0x13, 0xec, 0x5f, 0x97, 0x44, 0x17, 0xc4, 0xa7, 0x7e, 0x3d, 0x64, 0x5d, 0x19, 0x73,
   0x60, 0x81, 0x4f, 0xdc, 0x22, 0x2a, 0x90, 0x88, 0x46, 0xee, 0xb8, 0x14, 0xde, 0x5e, 0x0b, 0xdb,
   0xe0, 0x32, 0x3a, 0x0a, 0x49, 0x06, 0x24, 0x5c, 0xc2, 0xd3, 0xac, 0x62, 0x91, 0x95, 0xe4, 0x79,
   0xe7, 0xc8, 0x37, 0x6d, 0x8d, 0xd5, 0x4e, 0xa9, 0x6c, 0x56, 0xf4, 0xea, 0x65, 0x7a, 0xae, 0x08,
   0xba, 0x78, 0x25, 0x2e, 0x1c, 0xa6, 0xb4, 0xc6, 0xe8, 0xdd, 0x74, 0x1f, 0x4b, 0xbd, 0x8b, 0x8a,
   0x70, 0x3e, 0xb5, 0x66, 0x48, 0x03, 0xf6, 0x0e, 0x61, 0x35, 0x57, 0xb9, 0x86, 0xc1, 0x1d, 0x9e,
   0xe1, 0xf8, 0x98, 0x11, 0x69, 0xd9, 0x8e, 0x94, 0x9b, 0x1e, 0x87, 0xe9, 0xce, 0x55, 0x28, 0xdf,
   0x8c, 0xa1, 0x89, 0x0d, 0xbf, 0xe6, 0x42, 0x68, 0x41, 0x99, 0x2d, 0x0f, 0xb0, 0x54, 0xbb, 0x16]

/-- S-box substitution of one byte. -/
def subByte (b : Nat) : Nat := sBox.getD b 0

/-- SubBytes on the 16-byte state. -/
def subBytes (s : List Nat) : List Nat := s.map subByte

/-- ShiftRows as an index permutation of the column-major state. -/
def shiftRows (s : List Nat) : List Nat :=
  [0, 5, 10, 15, 4, 9, 14, 3, 8, 13, 2, 7, 12, 1, 6, 11].map (fun i => s.getD i 0)

/-- Multiplication by `x` in GF(2^8) modulo `x^8 + x^4 + x^3 + x + 1`. -/
def xtime (b : Nat) : Nat :=
  ((2 * b) % 256) ^^^ (if 128 ≤ b then 0x1b else 0)

/-- MixColumns on one column. -/
def mixColumn (a0 a1 a2 a3 : Nat) : List Nat :=
  [xtime a0 ^^^ (xtime a1 ^^^ a1) ^^^ a2 ^^^ a3,
   a0 ^^^ xtime a1 ^^^ (xtime a2 ^^^ a2) ^^^ a3,
   a0 ^^^ a1 ^^^ xtime a2 ^^^ (xtime a3 ^^^ a3),
   (xtime a0 ^^^ a0) ^^^ a1 ^^^ a2 ^^^ xtime a3]

/-- MixColumns on the 16-byte state. -/
def mixColumns (s : List Nat) : List Nat :=
  ((List.range 4).map (fun c =>
    mixColumn (s.getD (4 * c) 0) (s.getD (4 * c + 1) 0)
      (s.getD (4 * c + 2) 0) (s.getD (4 * c + 3) 0))).flatten

/-- AES round constants for AES-256 key expansion (rounds 1–7). -/
def rcon : List Nat := [0x01, 0x02, 0x04, 0x08, 0x10, 0x20, 0x40]

/-- Rotate a 4-byte word left by one byte. -/
def rotWord (w : List Nat) : List Nat := w.drop 1 ++ w.take 1

/-- S-box substitution on a 4-byte word. -/
def subWord (w : List Nat) : List Nat := w.map subByte

/-- The next expansion word from the accumulated schedule (AES-256, Nk = 8). -/
def nextWord (ws : List (List Nat)) : List Nat :=
  let i := ws.length
  let prev := ws.getD (i - 1) []
  let temp :=
    if i % 8 = 0 then
      (subWord (rotWord prev)).zipWith (· ^^^ ·) [rcon.getD (i / 8 - 1) 0, 0, 0, 0]
    else if i % 8 = 4 then subWord prev
    else prev
  (ws.getD (i - 8) []).zipWith (· ^^^ ·) temp

/-- AES-256 key expansion: 8 key words extended to 60 round-key words. -/
def expandKey (key : List Nat) : List (List Nat) :=
  (List.range 52).foldl (fun ws _ => ws ++ [nextWord ws]) (chunks 4 key)

/-- The 16 round-key bytes of round `r`, in state (column-major) order. -/
def roundKey (ws : List (List Nat)) (r : Nat) : List Nat :=
  ((ws.drop (4 * r)).take 4).flatten

/-- The forward AES-256 block function on a 16-byte block. -/
def aesEncBlock (key block : List Nat) : List Nat :=
  let ws := expandKey key
  let addRk := fun (s : List Nat) (r : Nat) => s.zipWith (· ^^^ ·) (roundKey ws r)
  let s0 := addRk block 0
  let sMain := (List.range 13).foldl
    (fun s r => addRk (mixColumns (shiftRows (subBytes s))) (r + 1)) s0
  addRk (shiftRows (subBytes sMain)) 14

/-! ## AES-GCM envelope (`crypto/cipher`, `Encrypt`/`Decrypt`)

GCM with the standard 12-byte nonce and 16-byte tag, as produced by
`cipher.NewGCM` and used by `CryptoManager.Encrypt`/`Decrypt`.  128-bit
blocks are manipulated as big-endian `Nat` values below `2^128`. -/

/-- The GHASH reduction constant `R = 0xe1 · x^120`. -/
def gcmR : Nat := 0xe1 <<< 120

/-- Carry-less multiplication in GF(2^128) (NIST SP 800-38D, §6.3). -/
def gmul (x y : Nat) : Nat :=
  ((List.range 128).foldl
    (fun (zv : Nat × Nat) i =>
      (if x.testBit (127 - i) then zv.1 ^^^ zv.2 else zv.1,
       if zv.2 % 2 = 1 then (zv.2 >>> 1) ^^^ gcmR else zv.2 >>> 1))
    (0, y)).1

/-- Zero-pad a byte string up to a multiple of 16 bytes. -/
def padTo16 (bs : List Nat) : List Nat :=
  bs ++ List.replicate ((16 - bs.length % 16) % 16) 0

/-- GHASH of a 16-byte-aligned byte string under hash key `h`. -/
def ghash (h : Nat) (bs : List Nat) : Nat :=
  (chunks 16 bs).foldl (fun y b => gmul (y ^^^ bytesToNat b) h) 0

/-- The CTR keystream: AES encryptions of the incremented counter block,
truncated to `n` bytes. -/
def gcmKeystream (key nonce : List Nat) (n : Nat) : List Nat :=
  let hi := bytesToNat nonce
  (((List.range ((n + 15) / 16)).map
      (fun i => aesEncBlock key (natToBytes 16 (hi * 4294967296 + ((2 + i) % 4294967296))))).flatten).take n

/-- The GCM authentication tag over ciphertext `ct` (no additional data),
as a 128-bit natural number. -/
def gcmTagNat (key nonce ct : List Nat) : Nat :=
  let h := bytesToNat (aesEncBlock key (List.replicate 16 0))
  let j0 := bytesToNat nonce * 4294967296 + 1
  let mask := bytesToNat (aesEncBlock key (natToBytes 16 j0))
  ghash h (padTo16 ct ++ natToBytes 16 (8 * ct.length)) ^^^ mask

/-- `gcm.Seal(nonce, nonce, data, nil)`: nonce ∥ ciphertext ∥ tag. -/
def gcmSeal (key nonce data : List Nat) : List Nat :=
  let ct := data.zipWith (· ^^^ ·) (gcmKeystream key nonce data.length)
  nonce ++ ct ++ natToBytes 16 (gcmTagNat key nonce ct)

/-- `CryptoManager.Encrypt`: fresh-nonce AES-GCM sealing.  The random
nonce is an explicit parameter; the derived 32-byte encryption key is
`key` (`aes.NewCipher` also accepts 16/24-byte keys, never used here). -/
def Encrypt (key nonce data : List Nat) : Except String (List Nat) :=
  if key.length = 32 then .ok (gcmSeal key nonce data) else .error "invalid key size"

/-- `CryptoManager.Decrypt`: split the nonce prefix, recompute the tag,
and open; any tag mismatch is an authentication error. -/
def Decrypt (key data : List Nat) : Except String (List Nat) :=
  if key.length ≠ 32 then .error "invalid key size"
  else if data.length < 12 then .error "ciphertext too short"
  else
    let nonce := data.take 12
    let rest := data.drop 12
    if rest.length < 16 then .error "cipher: message authentication failed"
    else
      let ct := rest.take (rest.length - 16)
      let tag := rest.drop (rest.length - 16)
      if natToBytes 16 (gcmTagNat key nonce ct) = tag then
        .ok (ct.zipWith (· ^^^ ·) (gcmKeystream key nonce ct.length))
      else .error "cipher: message authentication failed"

/-! ## License records (`pkg/license`)

`map[string]bool` is modelled as an association list with unique keys;
a `nil` Go map is `none`.  `encoding/json` marshalling is kept abstract
(`marshal`/`unmarshal` parameters); the system clock enters as a `Now`
value carrying the two formats the source derives from one `time.Now()`
call. -/

/-- The `License` record. -/
structure License where
  Serial : String
  PCId : String
  ProductName : String
  CreatedAt : String
  MaxDays : Int
  IsLifetime : Bool
  LastUsedDate : String
  FirstRunDate : String
  RunCount : Int
  IsActivated : Bool
  UsageHistory : List String
  UsageMap : Option (List (String × Bool))
  deriving DecidableEq, Repr

/-- Go map read `m[k]`: the stored value, or `false` when absent. -/
def mapGet (m : List (String × Bool)) (k : String) : Bool :=
  (((m.find? (fun p => p.1 == k)).map Prod.snd)).getD false

/-- Go map write `m[k] = v`: overwrite in place or append a new key. -/
def mapSet (m : List (String × Bool)) (k : String) (v : Bool) : List (String × Bool) :=
  if m.any (fun p => p.1 == k) then m.map (fun p => if p.1 == k then (p.1, v) else p)
  else m ++ [(k, v)]

/-- One `time.Now()` capture, in the two formats the engine derives from
it: the full RFC 3339 timestamp and the `YYYY-MM-DD` calendar day. -/
structure Now where
  full : String
  day : String
  deriving DecidableEq, Repr

/-- The failure taxonomy of the validation engine. -/
inductive VErr where
  | noSuchLicense
  | corruptOrRevoked
  | malformedRecord
  | wrongMachine
  | invalidSerial
  | clockRollback
  | licenseExpired
  | persistenceFailed
  | alreadyExists
  deriving DecidableEq, Repr

/-- The record-level steps of `readAndVerifyLicense` after decryption and
parsing: machine check, serial check, activation / usage transition, and
the expiration check.  `.ok lic'` is the record the caller persists.  The
source performs the expiration check once after the activation `if`/`else`,
with the same-instant path returning early before it; here that one check
is written at the end of each of the two paths that reach it — the control
flow is identical. -/
def verifyCore (md5Sum : List Nat → List Nat) (cm : CryptoManager)
    (lic : License) (currentPcId : String) (now : Now) : Except VErr License :=
  if lic.PCId ≠ currentPcId then .error .wrongMachine
  else if lic.Serial ≠ GenerateSerial md5Sum cm currentPcId lic.ProductName lic.MaxDays then
    .error .invalidSerial
  else
    let nowRFC3339 := now.full
    let today := now.day
    if lic.IsActivated = false then
      let lic' := { lic with
        IsActivated := true, FirstRunDate := nowRFC3339, LastUsedDate := nowRFC3339,
        RunCount := 1, UsageHistory := [today], UsageMap := some [(today, true)] }
      if lic'.IsLifetime = false ∧ (lic'.UsageHistory.length : Int) > lic'.MaxDays then
        .error .licenseExpired
      else .ok lic'
    else
      let lic1 := { lic with RunCount := lic.RunCount + 1 }
      if lic1.LastUsedDate ≠ "" ∧ lic1.LastUsedDate = nowRFC3339 then
        .ok lic1
      else if lic1.LastUsedDate ≠ "" ∧ lic1.LastUsedDate > nowRFC3339 then
        .error .clockRollback
      else
        let lic2 :=
          match lic1.UsageMap with
          | none => { lic1 with
              UsageMap := some (lic1.UsageHistory.foldl (fun m date => mapSet m date true) []) }
          | some _ => lic1
        let usedToday :=
          match lic2.UsageMap with
          | some m => mapGet m today
          | none =>
            if lic2.UsageHistory ≠ [] ∧ lic2.UsageHistory.getLast? = some today then true
            else if lic2.UsageHistory.contains today then true
            else false
        let lic3 :=
          if usedToday = false then
            { lic2 with
              LastUsedDate := nowRFC3339,
              UsageHistory := lic2.UsageHistory ++ [today],
              UsageMap :=
                match lic2.UsageMap with
                | some m => some (mapSet m today true)
                | none => none }
          else { lic2 with LastUsedDate := nowRFC3339 }
        if lic3.IsLifetime = false ∧ (lic3.UsageHistory.length : Int) > lic3.MaxDays then
          .error .licenseExpired
        else .ok lic3

/-- The on-disk state: file name to byte contents. -/
def FS : Type := String → Option (List Nat)

/-- `os.WriteFile`. -/
def fsWrite (fs : FS) (name : String) (bytes : List Nat) : FS :=
  fun p => if p = name then some bytes else fs p

/-- `saveLicense`: marshal the record, seal it under the derived
encryption key with a fresh `nonce`, and write the envelope. -/
def saveLicense (encKey nonce : List Nat) (marshal : License → List Nat)
    (fs : FS) (filename : String) (lic : License) : Except VErr FS :=
  match Encrypt encKey nonce (marshal lic) with
  | .error _ => .error .persistenceFailed
  | .ok bytes => .ok (fsWrite fs filename bytes)

/-- `readAndVerifyLicense`: stat/read the file, decrypt, parse, apply the
record-level transition, and persist on success.  Every error path leaves
the file system untouched. -/
def readAndVerifyLicense (md5Sum : List Nat → List Nat) (cm : CryptoManager)
    (encKey nonce : List Nat) (marshal : License → List Nat)
    (unmarshal : List Nat → Option License) (fs : FS)
    (filename currentPcId : String) (now : Now) : Except VErr License × FS :=
  match fs filename with
  | none => (.error .noSuchLicense, fs)
  | some encryptedData =>
    match Decrypt encKey encryptedData with
    | .error _ => (.error .corruptOrRevoked, fs)
    | .ok data =>
      match unmarshal data with
      | none => (.error .malformedRecord, fs)
      | some lic =>
        match verifyCore md5Sum cm lic currentPcId now with
        | .error e => (.error e, fs)
        | .ok lic' =>
          match saveLicense encKey nonce marshal fs filename lic' with
          | .error e => (.error e, fs)
          | .ok fs' => (.ok lic', fs')

/-- `Manager.View`: read, decrypt, parse, check the machine binding, and
return the record.  No serial check and no write occur in the source;
the unchanged file system is returned alongside the result. -/
def View (encKey : List Nat) (unmarshal : List Nat → Option License)
    (fs : FS) (filename currentPcId : String) : Except VErr License × FS :=
  match fs filename with
  | none => (.error .noSuchLicense, fs)
  | some encryptedData =>
    match Decrypt encKey encryptedData with
    | .error _ => (.error .corruptOrRevoked, fs)
    | .ok data =>
      match unmarshal data with
      | none => (.error .malformedRecord, fs)
      | some lic =>
        if lic.PCId ≠ currentPcId then (.error .wrongMachine, fs)
        else (.ok lic, fs)

/-- `Manager.Revoke`: require the file to exist, then overwrite its whole
contents with `GenerateRandomBytes(1024)` (the `randBytes` oracle models
`crypto/rand`). -/
def Revoke (randBytes : Nat → List Nat) (fs : FS) (filename : String) :
    Except VErr Unit × FS :=
  match fs filename with
  | none => (.error .noSuchLicense, fs)
  | some _ => (.ok (), fsWrite fs filename (randBytes 1024))

/-- The configuration values `Create` consults. -/
structure Config where
  DefaultMaxDays : Int
  LifetimeDays : Int
  deriving DecidableEq, Repr

/-- `Config.IsLifetimeRequest`. -/
def IsLifetimeRequest (cfg : Config) (maxDays : Int) : Bool :=
  maxDays == -1 || maxDays ≥ cfg.LifetimeDays

/-- `CreateLicenseRequest`. -/
structure CreateLicenseRequest where
  ProductName : String
  MaxDays : Int
  IsLifetime : Bool
  deriving DecidableEq, Repr

/-- The fresh record `Manager.Create` synthesizes. -/
def mkLicense (md5Sum : List Nat → List Nat) (cm : CryptoManager) (cfg : Config)
    (pcid : String) (req : CreateLicenseRequest) (createdAt : String) : License :=
  let isLifetime := req.IsLifetime || IsLifetimeRequest cfg req.MaxDays
  let maxDays := if isLifetime then cfg.LifetimeDays else req.MaxDays
  { Serial := GenerateSerial md5Sum cm pcid req.ProductName maxDays
    PCId := pcid
    ProductName := req.ProductName
    CreatedAt := createdAt
    MaxDays := maxDays
    IsLifetime := isLifetime
    LastUsedDate := ""
    FirstRunDate := ""
    RunCount := 0
    IsActivated := false
    UsageHistory := []
    UsageMap := some [] }

/-- `Manager.Create`: refuse to overwrite an existing file, otherwise
synthesize the fresh record and persist it. -/
def Create (md5Sum : List Nat → List Nat) (cm : CryptoManager) (cfg : Config)
    (encKey nonce : List Nat) (marshal : License → List Nat) (fs : FS)
    (filename pcid : String) (req : CreateLicenseRequest) (createdAt : String) :
    Except VErr License × FS :=
  match fs filename with
  | some _ => (.error .alreadyExists, fs)
  | none =>
    let lic := mkLicense md5Sum cm cfg pcid req createdAt
    match saveLicense encKey nonce marshal fs filename lic with
    | .error e => (.error e, fs)
    | .ok fs' => (.ok lic, fs')

/-- Iterated record-level validation: the record each successful
`readAndVerifyLicense` call persists is the record the next call reads. -/
def runValidates (md5Sum : List Nat → List Nat) (cm : CryptoManager)
    (currentPcId : String) : License → List Now → Except VErr License
  | lic, [] => .ok lic
  | lic, n :: rest =>
    match verifyCore md5Sum cm lic currentPcId n with
    | .error e => .error e
    | .ok lic' => runValidates md5Sum cm currentPcId lic' rest

/-- The usageMap synchronization invariant of the spec: the usage history
holds distinct days and, when the map is present, its keys are exactly the
entries of the history (as a set) and all its values are `true`. -/
def UsageMapSync (lic : License) : Prop :=
  lic.UsageHistory.Nodup ∧
    ∀ m, lic.UsageMap = some m →
      (m.map Prod.fst).Perm lic.UsageHistory ∧ ∀ p ∈ m, p.2 = true

/-! ## Concrete fixtures for witnesses

A degenerate-but-valid instantiation of the abstract parameters: a
constant MD5 oracle, the all-zero derived key and nonce, and a JSON codec
that encodes every record as the empty byte string and decodes it back to
a fixed record.  These discharge the hypotheses of the claim theorems at
concrete inputs. -/

/-- A concrete stand-in for `crypto/md5.Sum`: the all-zero digest. -/
def wMd5 : List Nat → List Nat := fun _ => List.replicate 16 0

/-- A concrete crypto manager. -/
def wCm : CryptoManager := { masterKey := [] }

/-- A concrete 32-byte encryption key. -/
def wKey : List Nat := List.replicate 32 0

/-- A concrete 12-byte nonce. -/
def wNonce : List Nat := List.replicate 12 0

/-- A degenerate `json.Marshal`: every record encodes to the empty string. -/
def wMarshal : License → List Nat := fun _ => []

/-- A degenerate `json.Unmarshal`: every payload decodes to `lic`. -/
def wUnmarshal (lic : License) : List Nat → Option License := fun _ => some lic

/-- The concrete license file name. -/
def wFile : String := "Acme.license"

/-- A file system holding exactly one license file. -/
def wFS (bytes : List Nat) : FS :=
  fun p => if p = wFile then some bytes else none

/-- The serial of the concrete fixture record. -/
def wSerial : String := GenerateSerial wMd5 wCm "PC-1" "Acme" 30

/-- A freshly created record bound to machine `PC-1`. -/
def wLic : License :=
  { Serial := wSerial, PCId := "PC-1", ProductName := "Acme", CreatedAt := "",
    MaxDays := 30, IsLifetime := false, LastUsedDate := "", FirstRunDate := "",
    RunCount := 0, IsActivated := false, UsageHistory := [], UsageMap := some [] }

/-- An activated fixture record with two recorded usage days. -/
def wLicAct : License :=
  { wLic with
    IsActivated := true, RunCount := 5,
    FirstRunDate := "2024-12-31T08:00:00Z", LastUsedDate := "2025-01-01T08:00:00Z",
    UsageHistory := ["2024-12-31", "2025-01-01"],
    UsageMap := some [("2024-12-31", true), ("2025-01-01", true)] }


/-- A fixture record with a two-day term, for the exactly-N-days law. -/
def wLic2 : License :=
  { Serial := GenerateSerial wMd5 wCm "PC-1" "Acme" 2, PCId := "PC-1", ProductName := "Acme",
    CreatedAt := "", MaxDays := 2, IsLifetime := false, LastUsedDate := "", FirstRunDate := "",
    RunCount := 0, IsActivated := false, UsageHistory := [], UsageMap := some [] }

/-! ## Basic byte-string lemmas -/

theorem natToBytesAux_length (len n : Nat) : (natToBytesAux len n).length = len := by
  induction len generalizing n with
  | zero => rfl
  | succ k ih => simp [natToBytesAux, ih]

theorem natToBytes_length (len n : Nat) : (natToBytes len n).length = len := by
  simp [natToBytes, natToBytesAux_length]

theorem sha256_length (m : List Nat) : (sha256 m).length = 32 := by
  simp [sha256, natToBytes, natToBytesAux_length, Function.comp]
  rfl

/-! ## Claim C4 — master-secret normalization

The spec claims the SHA-256 normalization of the master secret is applied
only when the secret is not already exactly 32 bytes.  In the source
(`NewCryptoManagerWithKey`, `getMasterKey`) the hash is applied
unconditionally, so a 32-byte secret is still replaced by its digest. -/

/-- C4 (counterexample): a master secret of exactly 32 bytes for which the
crypto manager's master key — the input to both key derivations — is the
SHA-256 digest of the secret, not the secret itself: the normalization
hash is applied even at length 32, contradicting the claim. -/
theorem C4_counterexample :
    (strBytes "0123456789abcdef0123456789abcdef").length = 32 ∧
      NewCryptoManagerWithKey "0123456789abcdef0123456789abcdef" =
        .ok { masterKey := sha256 (strBytes "0123456789abcdef0123456789abcdef") } ∧
      sha256 (strBytes "0123456789abcdef0123456789abcdef") ≠
        strBytes "0123456789abcdef0123456789abcdef" := by
  refine ⟨by decide, rfl, by decide⟩

/-- C4 (amended): the normalization is unconditional — for every non-empty
master secret, of any length including exactly 32 bytes, the stored master
key is the 32-byte SHA-256 digest of the secret, and the derived keys are
computed from that digest. -/
theorem C4_theorem (s : String) (hs : s ≠ "") :
    NewCryptoManagerWithKey s = .ok { masterKey := sha256 (strBytes s) } ∧
      (sha256 (strBytes s)).length = 32 := by
  refine ⟨?_, sha256_length _⟩
  simp [NewCryptoManagerWithKey, hs]

/-- C4 witness: the amended statement at the concrete secret `"k"`. -/
theorem C4_witness :
    NewCryptoManagerWithKey "k" = .ok { masterKey := sha256 (strBytes "k") } ∧
      (sha256 (strBytes "k")).length = 32 :=
  C4_theorem "k" (by decide)

/-! ## Claim C10 — serial token format -/

theorem hexChars_cons (b : Nat) (t : List Nat) :
    hexChars (b :: t) =
      hexTable.getD (b >>> 4) '0' :: hexTable.getD (b &&& 0x0f) '0' :: hexChars t := rfl

theorem upperHex_getD (n : Nat) :
    isUpperHexDigit ((hexTable[n]?.getD '0').toUpper) = true := by
  rw [← List.getD_eq_getElem?_getD]
  by_cases h : n < 16
  · interval_cases n
    all_goals decide
  · rw [List.getD_eq_default]
    · decide
    · have hl : hexTable.length = 16 := rfl
      omega

theorem pop_head (l : List Nat) (n : Nat) (h : l.length = n + 1) :
    ∃ a t, l = a :: t ∧ t.length = n := by
  cases l with
  | nil => exact absurd h (by simp)
  | cons a t => exact ⟨a, t, rfl, by simpa using h⟩

theorem length16_shape (l : List Nat) (h : l.length = 16) :
    ∃ a0 a1 a2 a3 a4 a5 a6 a7 a8 a9 t,
      l = a0 :: a1 :: a2 :: a3 :: a4 :: a5 :: a6 :: a7 :: a8 :: a9 :: t := by
  obtain ⟨b0, l, rfl, h0⟩ := pop_head l 15 h
  obtain ⟨b1, l, rfl, h1⟩ := pop_head l 14 h0
  obtain ⟨b2, l, rfl, h2⟩ := pop_head l 13 h1
  obtain ⟨b3, l, rfl, h3⟩ := pop_head l 12 h2
  obtain ⟨b4, l, rfl, h4⟩ := pop_head l 11 h3
  obtain ⟨b5, l, rfl, h5⟩ := pop_head l 10 h4
  obtain ⟨b6, l, rfl, h6⟩ := pop_head l 9 h5
  obtain ⟨b7, l, rfl, h7⟩ := pop_head l 8 h6
  obtain ⟨b8, l, rfl, h8⟩ := pop_head l 7 h7
  obtain ⟨b9, l, rfl, h9⟩ := pop_head l 6 h8
  exact ⟨b0, b1, b2, b3, b4, b5, b6, b7, b8, b9, l, rfl⟩

theorem serialFormatOK_explicit
    (c0 c1 c2 c3 c4 c5 c6 c7 c8 c9 c10 c11 c12 c13 c14 c15 c16 c17 c18 c19 : Char)
    (h0 : isUpperHexDigit c0 = true) (h1 : isUpperHexDigit c1 = true)
    (h2 : isUpperHexDigit c2 = true) (h3 : isUpperHexDigit c3 = true)
    (h4 : isUpperHexDigit c4 = true) (h5 : isUpperHexDigit c5 = true)
    (h6 : isUpperHexDigit c6 = true) (h7 : isUpperHexDigit c7 = true)
    (h8 : isUpperHexDigit c8 = true) (h9 : isUpperHexDigit c9 = true)
    (h10 : isUpperHexDigit c10 = true) (h11 : isUpperHexDigit c11 = true)
    (h12 : isUpperHexDigit c12 = true) (h13 : isUpperHexDigit c13 = true)
    (h14 : isUpperHexDigit c14 = true) (h15 : isUpperHexDigit c15 = true)
    (h16 : isUpperHexDigit c16 = true) (h17 : isUpperHexDigit c17 = true)
    (h18 : isUpperHexDigit c18 = true) (h19 : isUpperHexDigit c19 = true) :
    serialFormatOK (String.mk
      [c0, c1, c2, c3, c4, '-', c5, c6, c7, c8, c9, '-',
       c10, c11, c12, c13, c14, '-', c15, c16, c17, c18, c19]) = true := by
  have hr : List.range 23 =
      [0,1,2,3,4,5,6,7,8,9,10,11,12,13,14,15,16,17,18,19,20,21,22] := by decide
  simp [serialFormatOK, hr, h0, h1, h2, h3, h4, h5, h6, h7, h8, h9,
    h10, h11, h12, h13, h14, h15, h16, h17, h18, h19]

/-- C10: for every MD5 digest function producing 16-byte digests, the
generated serial token has exactly 23 characters, with `'-'` exactly at
indices 5, 11 and 17 and upper-case hexadecimal characters elsewhere.
Determinism is definitional: `GenerateSerial` is a pure function of its
arguments in this embedding, as in the source (no I/O, no randomness). -/
theorem C10_theorem (md5Sum : List Nat → List Nat) (cm : CryptoManager)
    (pcId productName : String) (maxDays : Int)
    (hlen : ∀ m, (md5Sum m).length = 16) :
    serialFormatOK (GenerateSerial md5Sum cm pcId productName maxDays) = true := by
  unfold GenerateSerial
  obtain ⟨a0, a1, a2, a3, a4, a5, a6, a7, a8, a9, t, heq⟩ :=
    length16_shape (md5Sum (strBytes (pcId ++ "|" ++ productName ++ "|" ++
      toString maxDays ++ "|" ++ hexStr (DeriveSerialKey cm)))) (hlen _)
  simp only [heq, hexChars_cons, dashEvery5]
  norm_num [List.take]
  have hd : ('-').toUpper = '-' := by decide
  simp only [hd]
  exact serialFormatOK_explicit _ _ _ _ _ _ _ _ _ _ _ _ _ _ _ _ _ _ _ _
    (upperHex_getD _) (upperHex_getD _) (upperHex_getD _) (upperHex_getD _)
    (upperHex_getD _) (upperHex_getD _) (upperHex_getD _) (upperHex_getD _)
    (upperHex_getD _) (upperHex_getD _) (upperHex_getD _) (upperHex_getD _)
    (upperHex_getD _) (upperHex_getD _) (upperHex_getD _) (upperHex_getD _)
    (upperHex_getD _) (upperHex_getD _) (upperHex_getD _) (upperHex_getD _)

/-- C10 witness: the token format at a concrete digest function and inputs. -/
theorem C10_witness :
    serialFormatOK (GenerateSerial (fun _ => List.replicate 16 0)
      { masterKey := [] } "PC" "Acme" 30) = true :=
  C10_theorem _ _ _ _ _ (fun _ => by simp)



theorem foldl_inv {α β : Type} (P : α → Prop) (f : α → β → α)
    (hstep : ∀ x b, P x → P (f x b)) :
    ∀ (l : List β) (a : α), P a → P (l.foldl f a) := by
  intro l
  induction l with
  | nil => intro a ha; exact ha
  | cons b t ih => intro a ha; exact ih _ (hstep _ _ ha)

theorem zipWith_mem {f : Nat → Nat → Nat} :
    ∀ {l1 l2 : List Nat} {x}, x ∈ List.zipWith f l1 l2 →
      ∃ a b, a ∈ l1 ∧ b ∈ l2 ∧ x = f a b := by
  intro l1
  induction l1 with
  | nil => intro l2 x h; simp at h
  | cons a t ih =>
    intro l2 x h
    cases l2 with
    | nil => simp at h
    | cons b t2 =>
      simp only [List.zipWith_cons_cons, List.mem_cons] at h
      rcases h with h | h
      · exact ⟨a, b, by simp, by simp, h⟩
      · obtain ⟨a', b', ha, hb, hx⟩ := ih h
        exact ⟨a', b', by simp [ha], by simp [hb], hx⟩

theorem zipWith_xor_cancel :
    ∀ (l ks : List Nat), l.length ≤ ks.length →
      (l.zipWith (· ^^^ ·) ks).zipWith (· ^^^ ·) ks = l := by
  intro l
  induction l with
  | nil => intro ks h; simp
  | cons a t ih =>
    intro ks h
    cases ks with
    | nil => simp at h
    | cons k kt =>
      simp only [List.zipWith_cons_cons]
      rw [Nat.xor_cancel_right, ih kt (by simpa using h)]

theorem bytesToNat_append_singleton (l : List Nat) (b : Nat) :
    bytesToNat (l ++ [b]) = bytesToNat l * 256 + b := by
  simp [bytesToNat, List.foldl_append]

theorem bytesToNat_natToBytesAux :
    ∀ (len n : Nat), bytesToNat (natToBytesAux len n).reverse = n % 256 ^ len := by
  intro len
  induction len with
  | zero => intro n; simp [natToBytesAux, bytesToNat]; omega
  | succ k ih =>
    intro n
    simp only [natToBytesAux, List.reverse_cons, bytesToNat_append_singleton, ih]
    rw [pow_succ, mul_comm (256 ^ k) 256, Nat.mod_mul]
    ring

theorem bytesToNat_natToBytes (len n : Nat) (h : n < 256 ^ len) :
    bytesToNat (natToBytes len n) = n := by
  rw [natToBytes, bytesToNat_natToBytesAux, Nat.mod_eq_of_lt h]

theorem natToBytes_bytes_lt (len n : Nat) : ∀ b ∈ natToBytes len n, b < 256 := by
  rw [natToBytes]
  intro b hb
  rw [List.mem_reverse] at hb
  induction len generalizing n with
  | zero => simp [natToBytesAux] at hb
  | succ k ih =>
    simp only [natToBytesAux, List.mem_cons] at hb
    rcases hb with h | h
    · omega
    · exact ih _ h

theorem bytesToNat_lt_aux :
    ∀ (l : List Nat) (acc : Nat), (∀ b ∈ l, b < 256) →
      l.foldl (fun acc b => acc * 256 + b) acc < (acc + 1) * 256 ^ l.length := by
  intro l
  induction l with
  | nil => intro acc _; simp
  | cons b t ih =>
    intro acc hb
    simp only [List.foldl_cons, List.length_cons]
    calc List.foldl (fun acc b => acc * 256 + b) (acc * 256 + b) t
        < (acc * 256 + b + 1) * 256 ^ t.length := ih _ (fun x hx => hb x (by simp [hx]))
      _ ≤ ((acc + 1) * 256) * 256 ^ t.length := by
          have : b < 256 := hb b (by simp)
          have : acc * 256 + b + 1 ≤ (acc + 1) * 256 := by nlinarith
          exact Nat.mul_le_mul_right _ this
      _ = (acc + 1) * 256 ^ (t.length + 1) := by ring

theorem bytesToNat_lt (l : List Nat) (h : ∀ b ∈ l, b < 256) :
    bytesToNat l < 256 ^ l.length := by
  have := bytesToNat_lt_aux l 0 h
  simpa [bytesToNat] using this


theorem chunksAux_mem_length (sz : Nat) :
    ∀ (fuel : Nat) (l : List Nat), sz ∣ l.length →
      ∀ c ∈ chunksAux sz fuel l, c.length = sz := by
  intro fuel
  induction fuel with
  | zero => intro l _ c hc; simp [chunksAux] at hc
  | succ k ih =>
    intro l hdvd c hc
    cases l with
    | nil => simp [chunksAux] at hc
    | cons a t =>
      simp only [chunksAux, List.mem_cons] at hc
      have hlen : sz ≤ (a :: t).length := by
        obtain ⟨q, hq⟩ := hdvd
        rcases Nat.eq_zero_or_pos q with h0 | h0
        · simp [h0] at hq
        · calc sz = sz * 1 := by ring
            _ ≤ sz * q := Nat.mul_le_mul_left _ h0
            _ = (a :: t).length := hq.symm
      rcases hc with h | h
      · rw [h, List.length_take]; omega
      · refine ih _ ?_ _ h
        rw [List.length_drop]
        obtain ⟨q, hq⟩ := hdvd
        rcases Nat.eq_zero_or_pos q with h0 | h0
        · simp [h0] at hq
        · refine ⟨q - 1, ?_⟩
          cases q with
          | zero => omega
          | succ m => rw [hq, Nat.mul_succ]; simp only [Nat.add_sub_cancel]

theorem chunksAux_length (sz : Nat) (hsz : 0 < sz) :
    ∀ (fuel : Nat) (l : List Nat), l.length ≤ fuel → sz ∣ l.length →
      (chunksAux sz fuel l).length = l.length / sz := by
  intro fuel
  induction fuel with
  | zero =>
    intro l hf _
    have : l = [] := List.eq_nil_of_length_eq_zero (by omega)
    simp [this, chunksAux]
  | succ k ih =>
    intro l hf hdvd
    cases l with
    | nil => simp [chunksAux]
    | cons a t =>
      obtain ⟨q, hq⟩ := hdvd
      rcases Nat.eq_zero_or_pos q with h0 | h0
      · simp [h0] at hq
      simp only [chunksAux, List.length_cons]
      have hdrop : ((a :: t).drop sz).length = sz * (q - 1) := by
        rw [List.length_drop, hq]
        cases q with
        | zero => omega
        | succ m => rw [Nat.mul_succ]; simp only [Nat.add_sub_cancel]
      have hdvd' : sz ∣ ((a :: t).drop sz).length := ⟨q - 1, hdrop⟩
      have hle : ((a :: t).drop sz).length ≤ k := by
        rw [List.length_drop]
        simp only [List.length_cons] at hf ⊢
        omega
      simp only [List.length_cons] at hq
      rw [ih _ hle hdvd', hdrop, hq]
      rw [Nat.mul_div_cancel_left _ hsz, Nat.mul_div_cancel_left _ hsz]
      omega

theorem foldl_snoc_length {α : Type} (f : List α → α) :
    ∀ (n : List Nat) (acc : List α),
      (n.foldl (fun ws _ => ws ++ [f ws]) acc).length = acc.length + n.length := by
  intro n
  induction n with
  | nil => intro acc; simp
  | cons b t ih => intro acc; rw [List.foldl_cons, ih]; simp; omega


theorem subByte_lt (b : Nat) : subByte b < 256 := by
  unfold subByte
  by_cases h : b < sBox.length
  · have hall : sBox.all (fun x => decide (x < 256)) = true := by decide
    rw [List.getD_eq_getElem sBox 0 h]
    have := List.all_eq_true.mp hall _ (List.getElem_mem h)
    simpa using this
  · rw [List.getD_eq_default _ _ (by omega)]
    omega

theorem rcon_getD_lt (n : Nat) : rcon.getD n 0 < 256 := by
  by_cases h : n < rcon.length
  · have hall : rcon.all (fun x => decide (x < 256)) = true := by decide
    rw [List.getD_eq_getElem rcon 0 h]
    have := List.all_eq_true.mp hall _ (List.getElem_mem h)
    simpa using this
  · rw [List.getD_eq_default _ _ (by omega)]
    omega

theorem chunksAux_subset (sz : Nat) :
    ∀ (fuel : Nat) (l : List Nat), ∀ c ∈ chunksAux sz fuel l, ∀ x ∈ c, x ∈ l := by
  intro fuel
  induction fuel with
  | zero => intro l c hc; simp [chunksAux] at hc
  | succ k ih =>
    intro l c hc x hx
    cases l with
    | nil => simp [chunksAux] at hc
    | cons a t =>
      simp only [chunksAux, List.mem_cons] at hc
      rcases hc with h | h
      · exact List.mem_of_mem_take (h ▸ hx)
      · exact List.mem_of_mem_drop (ih _ _ h _ hx)

theorem nextWord_spec (ws : List (List Nat)) (h8 : 8 ≤ ws.length)
    (hw : ∀ w ∈ ws, w.length = 4 ∧ ∀ b ∈ w, b < 256) :
    (nextWord ws).length = 4 ∧ ∀ b ∈ nextWord ws, b < 256 := by
  unfold nextWord
  have hprev : ws.getD (ws.length - 1) [] ∈ ws := by
    rw [List.getD_eq_getElem _ _ (by omega)]
    exact List.getElem_mem _
  have hm8 : ws.getD (ws.length - 8) [] ∈ ws := by
    rw [List.getD_eq_getElem _ _ (by omega)]
    exact List.getElem_mem _
  obtain ⟨hl1, hb1⟩ := hw _ hprev
  obtain ⟨hl8, hb8⟩ := hw _ hm8
  set prev := ws.getD (ws.length - 1) [] with hprevdef
  set w8 := ws.getD (ws.length - 8) [] with hw8def
  have hrot_len : (rotWord prev).length = 4 := by
    simp [rotWord, hl1]
  have hrot_mem : ∀ b ∈ rotWord prev, b < 256 := by
    intro b hb
    rcases List.mem_append.mp hb with h | h
    · exact hb1 _ (List.mem_of_mem_drop h)
    · exact hb1 _ (List.mem_of_mem_take h)
  have hsub_len : ∀ l : List Nat, (subWord l).length = l.length := by
    intro l; simp [subWord]
  have hsub_mem : ∀ (l : List Nat), ∀ b ∈ subWord l, b < 256 := by
    intro l b hb
    obtain ⟨y, _, rfl⟩ := List.mem_map.mp hb
    exact subByte_lt y
  have htemp : ∀ t ∈ [(if ws.length % 8 = 0 then
        (subWord (rotWord prev)).zipWith (· ^^^ ·) [rcon.getD (ws.length / 8 - 1) 0, 0, 0, 0]
      else if ws.length % 8 = 4 then subWord prev else prev)],
      t.length = 4 ∧ ∀ b ∈ t, b < 256 := by
    intro t ht
    simp only [List.mem_singleton] at ht
    subst ht
    split
    · constructor
      · rw [List.length_zipWith, hsub_len, hrot_len]
        simp
      · intro b hb
        obtain ⟨x, y, hx, hy, rfl⟩ := zipWith_mem hb
        have hxlt : x < 256 := hsub_mem _ _ hx
        have hylt : y < 256 := by
          simp only [List.mem_cons] at hy
          rcases hy with rfl | hy
          · exact rcon_getD_lt _
          · simp at hy
            rcases hy with rfl | rfl | ⟨h, _⟩
            all_goals omega
        calc x ^^^ y < 2 ^ 8 := Nat.xor_lt_two_pow (by simpa using hxlt) (by simpa using hylt)
          _ = 256 := by norm_num
    · split
      · exact ⟨by rw [hsub_len, hl1], hsub_mem _⟩
      · exact ⟨hl1, hb1⟩
  have htemp' := htemp _ (List.mem_singleton_self _)
  constructor
  · rw [List.length_zipWith, hl8, htemp'.1]
    simp
  · intro b hb
    obtain ⟨x, y, hx, hy, rfl⟩ := zipWith_mem hb
    have hxlt : x < 256 := hb8 _ hx
    have hylt : y < 256 := htemp'.2 _ hy
    calc x ^^^ y < 2 ^ 8 := Nat.xor_lt_two_pow (by simpa using hxlt) (by simpa using hylt)
      _ = 256 := by norm_num

theorem expandKey_spec (key : List Nat) (hk : key.length = 32)
    (hkb : ∀ b ∈ key, b < 256) :
    (expandKey key).length = 60 ∧
      ∀ w ∈ expandKey key, w.length = 4 ∧ ∀ b ∈ w, b < 256 := by
  have hdvd : 4 ∣ key.length := by rw [hk]; omega
  have hbase_len : (chunks 4 key).length = 8 := by
    rw [chunks, chunksAux_length 4 (by omega) key.length key (le_refl _) hdvd, hk]
  have hbase_mem : ∀ w ∈ chunks 4 key, w.length = 4 ∧ ∀ b ∈ w, b < 256 := by
    intro w hw
    exact ⟨chunksAux_mem_length 4 _ _ hdvd _ hw,
      fun b hb => hkb _ (chunksAux_subset 4 _ _ _ hw _ hb)⟩
  constructor
  · rw [expandKey, foldl_snoc_length, hbase_len]
    simp
  · have := foldl_inv
      (fun ws : List (List Nat) =>
        8 ≤ ws.length ∧ ∀ w ∈ ws, w.length = 4 ∧ ∀ b ∈ w, b < 256)
      (fun ws _ => ws ++ [nextWord ws])
      (fun ws i hws => by
        refine ⟨by simp; omega, ?_⟩
        intro w hw
        rcases List.mem_append.mp hw with h | h
        · exact hws.2 _ h
        · simp only [List.mem_singleton] at h
          subst h
          exact nextWord_spec ws hws.1 hws.2)
      (List.range 52) (chunks 4 key) ⟨by omega, hbase_mem⟩
    exact this.2


theorem roundKey_spec (key : List Nat) (hk : key.length = 32)
    (hkb : ∀ b ∈ key, b < 256) (r : Nat) (hr : r ≤ 14) :
    (roundKey (expandKey key) r).length = 16 ∧
      ∀ b ∈ roundKey (expandKey key) r, b < 256 := by
  obtain ⟨hlen, hmem⟩ := expandKey_spec key hk hkb
  constructor
  · rw [roundKey, List.length_flatten]
    have h4 : (((expandKey key).drop (4 * r)).take 4).map List.length
        = List.replicate 4 4 := by
      apply List.eq_replicate_iff.mpr
      constructor
      · rw [List.length_map, List.length_take, List.length_drop, hlen]
        omega
      · intro x hx
        obtain ⟨w, hw, rfl⟩ := List.mem_map.mp hx
        exact (hmem w (List.mem_of_mem_drop (List.mem_of_mem_take hw))).1
    rw [h4]
    simp
  · intro b hb
    rw [roundKey] at hb
    obtain ⟨w, hw, hbw⟩ := List.mem_flatten.mp hb
    exact (hmem w (List.mem_of_mem_drop (List.mem_of_mem_take hw))).2 _ hbw

theorem getD_subBytes_lt (s : List Nat) (i : Nat) : (subBytes s).getD i 0 < 256 := by
  by_cases h : i < (subBytes s).length
  · rw [List.getD_eq_getElem _ _ h]
    have := List.getElem_mem h
    obtain ⟨y, _, heq⟩ := List.mem_map.mp this
    rw [← heq]
    exact subByte_lt y
  · rw [List.getD_eq_default _ _ (by omega)]
    omega

theorem aesEncBlock_spec (key block : List Nat) (hk : key.length = 32)
    (hkb : ∀ b ∈ key, b < 256) :
    (aesEncBlock key block).length = 16 ∧ ∀ b ∈ aesEncBlock key block, b < 256 := by
  have hshift_len : ∀ s : List Nat, (shiftRows s).length = 16 := by
    intro s; simp [shiftRows]
  obtain ⟨hrk_len, hrk_mem⟩ := roundKey_spec key hk hkb 14 (by omega)
  unfold aesEncBlock
  constructor
  · rw [List.length_zipWith, hshift_len, hrk_len]
    simp
  · intro b hb
    obtain ⟨x, y, hx, hy, rfl⟩ := zipWith_mem hb
    have hxlt : x < 256 := by
      rw [shiftRows] at hx
      obtain ⟨i, _, rfl⟩ := List.mem_map.mp hx
      exact getD_subBytes_lt _ _
    have hylt : y < 256 := hrk_mem _ hy
    calc x ^^^ y < 2 ^ 8 := Nat.xor_lt_two_pow (by simpa using hxlt) (by simpa using hylt)
      _ = 256 := by norm_num

theorem gcmKeystream_length (key nonce : List Nat) (hk : key.length = 32)
    (hkb : ∀ b ∈ key, b < 256) (n : Nat) :
    (gcmKeystream key nonce n).length = n := by
  rw [gcmKeystream]
  rw [List.length_take, List.length_flatten]
  have hmap : ((List.range ((n + 15) / 16)).map
        (fun i => aesEncBlock key (natToBytes 16
          (bytesToNat nonce * 4294967296 + ((2 + i) % 4294967296))))).map List.length
      = List.replicate ((n + 15) / 16) 16 := by
    apply List.eq_replicate_iff.mpr
    refine ⟨by simp, ?_⟩
    intro x hx
    obtain ⟨w, hw, rfl⟩ := List.mem_map.mp hx
    obtain ⟨i, _, rfl⟩ := List.mem_map.mp hw
    exact (aesEncBlock_spec key _ hk hkb).1
  rw [hmap, List.sum_replicate]
  simp only [smul_eq_mul]
  have := Nat.div_add_mod (n + 15) 16
  have hlt := Nat.mod_lt (n + 15) (show 0 < 16 by omega)
  omega


theorem gmul_lt (x y : Nat) (hy : y < 2 ^ 128) : gmul x y < 2 ^ 128 := by
  rw [gmul]
  have hR : gcmR < 2 ^ 128 := by
    rw [gcmR, Nat.shiftLeft_eq]
    norm_num
  have := foldl_inv (fun zv : Nat × Nat => zv.1 < 2 ^ 128 ∧ zv.2 < 2 ^ 128)
    (fun zv i =>
      (if x.testBit (127 - i) then zv.1 ^^^ zv.2 else zv.1,
       if zv.2 % 2 = 1 then (zv.2 >>> 1) ^^^ gcmR else zv.2 >>> 1))
    (fun zv i hzv => by
      dsimp only
      have hshift : zv.2 >>> 1 < 2 ^ 128 := by
        rw [Nat.shiftRight_eq_div_pow]
        calc zv.2 / 2 ^ 1 ≤ zv.2 := Nat.div_le_self _ _
          _ < 2 ^ 128 := hzv.2
      constructor
      · split
        · exact Nat.xor_lt_two_pow hzv.1 hzv.2
        · exact hzv.1
      · split
        · exact Nat.xor_lt_two_pow hshift hR
        · exact hshift)
    (List.range 128) (0, y) ⟨by norm_num, hy⟩
  exact this.1

theorem ghash_lt (h : Nat) (hh : h < 2 ^ 128) (bs : List Nat) : ghash h bs < 2 ^ 128 := by
  rw [ghash]
  exact foldl_inv (fun y => y < 2 ^ 128)
    (fun y b => gmul (y ^^^ bytesToNat b) h)
    (fun y b _ => gmul_lt _ _ hh)
    (chunks 16 (bs)) 0 (by norm_num)

theorem gcmTagNat_lt (key nonce ct : List Nat) (hk : key.length = 32)
    (hkb : ∀ b ∈ key, b < 256) : gcmTagNat key nonce ct < 2 ^ 128 := by
  rw [gcmTagNat]
  have haes : ∀ block : List Nat, bytesToNat (aesEncBlock key block) < 2 ^ 128 := by
    intro block
    obtain ⟨hlen, hmem⟩ := aesEncBlock_spec key block hk hkb
    have := bytesToNat_lt _ hmem
    rw [hlen] at this
    calc bytesToNat (aesEncBlock key block) < 256 ^ 16 := this
      _ = 2 ^ 128 := by norm_num
  exact Nat.xor_lt_two_pow (ghash_lt _ (haes _) _) (haes _)


theorem gcmSeal_roundtrip (key nonce data : List Nat) (hk : key.length = 32)
    (hkb : ∀ b ∈ key, b < 256) (hn : nonce.length = 12) :
    Decrypt key (gcmSeal key nonce data) = .ok data := by
  have hks := gcmKeystream_length key nonce hk hkb data.length
  have hctlen : (data.zipWith (· ^^^ ·) (gcmKeystream key nonce data.length)).length
      = data.length := by
    rw [List.length_zipWith, hks]
    simp
  set ct := data.zipWith (· ^^^ ·) (gcmKeystream key nonce data.length) with hct
  set tag := natToBytes 16 (gcmTagNat key nonce ct) with htag
  have htaglen : tag.length = 16 := natToBytes_length _ _
  have hseal : gcmSeal key nonce data = nonce ++ (ct ++ tag) := by
    rw [gcmSeal, List.append_assoc]
  rw [hseal, Decrypt]
  rw [if_neg (show ¬(key.length ≠ 32) by omega)]
  have hlen_all : (nonce ++ (ct ++ tag)).length = data.length + 28 := by
    simp [hn, hctlen, htaglen]
    omega
  rw [if_neg (show ¬((nonce ++ (ct ++ tag)).length < 12) by omega)]
  have ht12 : (nonce ++ (ct ++ tag)).take 12 = nonce := List.take_left' hn
  have hd12 : (nonce ++ (ct ++ tag)).drop 12 = ct ++ tag := List.drop_left' hn
  rw [ht12, hd12]
  have hresttag : (ct ++ tag).length = data.length + 16 := by
    simp [hctlen, htaglen]
  rw [if_neg (show ¬((ct ++ tag).length < 16) by omega)]
  have hctlen' : ct.length = (ct ++ tag).length - 16 := by
    simp [hctlen, htaglen]
  have htake : (ct ++ tag).take ((ct ++ tag).length - 16) = ct := List.take_left' hctlen'
  have hdrop : (ct ++ tag).drop ((ct ++ tag).length - 16) = tag := List.drop_left' hctlen'
  rw [htake, hdrop, if_pos htag.symm]
  rw [hct, hctlen]
  rw [zipWith_xor_cancel data _ (le_of_eq hks.symm)]

theorem Encrypt_ok (key nonce data : List Nat) (hk : key.length = 32) :
    Encrypt key nonce data = .ok (gcmSeal key nonce data) := by
  simp [Encrypt, hk]


theorem decrypt_tag_collision (K1 K2 nonce : List Nat) (h2 : K2.length = 32)
    (hn : nonce.length = 12)
    (htageq : gcmTagNat K2 nonce [] = gcmTagNat K1 nonce []) :
    Decrypt K2 (gcmSeal K1 nonce []) = .ok [] := by
  set tag := natToBytes 16 (gcmTagNat K1 nonce []) with htag
  have htaglen : tag.length = 16 := natToBytes_length _ _
  have hseal : gcmSeal K1 nonce [] = nonce ++ ([] ++ tag) := by
    rw [gcmSeal, List.append_assoc]
    rfl
  rw [hseal, Decrypt]
  rw [if_neg (show ¬(K2.length ≠ 32) by omega)]
  have hlen_all : (nonce ++ ([] : List Nat) ++ tag).length = 28 := by
    simp [hn, htaglen]
  rw [if_neg (show ¬((nonce ++ (([] : List Nat) ++ tag)).length < 12) by simp [hn, htaglen])]
  rw [List.take_left' hn, List.drop_left' hn]
  simp only [List.nil_append]
  rw [if_neg (show ¬(tag.length < 16) by omega)]
  rw [show tag.length - 16 = 0 by omega, List.take_zero, List.drop_zero]
  rw [if_pos (show natToBytes 16 (gcmTagNat K2 nonce []) = tag from by rw [htag, htageq])]
  rfl

/-- C6 (counterexample): the negation of the wrong-key half of the claim.
It is not the case that every envelope sealed under one 32-byte key fails
to open under every other 32-byte key: the authentication-tag map sends
2^256 keys into 2^128 tags, so two distinct keys share the tag of the
empty-plaintext envelope and each opens the other's envelope. -/
theorem C6_counterexample :
    ¬ (∀ k1 k2 : List Nat, k1.length = 32 → k2.length = 32 →
        (∀ b ∈ k1, b < 256) → (∀ b ∈ k2, b < 256) → k1 ≠ k2 →
        ∀ env, Encrypt k1 (List.replicate 12 0) [] = .ok env →
          ∃ e, Decrypt k2 env = .error e) := by
  intro hclaim
  have hcard : Fintype.card (Fin (2 ^ 128)) < Fintype.card (Fin (2 ^ 256)) := by
    simp only [Fintype.card_fin]
    exact Nat.pow_lt_pow_right (by norm_num) (by norm_num)
  have hpow : (256 : Nat) ^ 32 = 2 ^ 256 := by norm_num
  let f : Fin (2 ^ 256) → Fin (2 ^ 128) := fun k =>
    ⟨gcmTagNat (natToBytes 32 k.val) (List.replicate 12 0) [],
      gcmTagNat_lt _ _ _ (natToBytes_length _ _) (natToBytes_bytes_lt _ _)⟩
  obtain ⟨k1, k2, hne, hfeq⟩ := Fintype.exists_ne_map_eq_of_card_lt f hcard
  have hKne : natToBytes 32 k1.val ≠ natToBytes 32 k2.val := by
    intro h
    apply hne
    have h1 : bytesToNat (natToBytes 32 k1.val) = k1.val :=
      bytesToNat_natToBytes 32 _ (by rw [hpow]; exact k1.isLt)
    have h2 : bytesToNat (natToBytes 32 k2.val) = k2.val :=
      bytesToNat_natToBytes 32 _ (by rw [hpow]; exact k2.isLt)
    exact Fin.ext (by rw [← h1, ← h2, h])
  obtain ⟨e, he⟩ := hclaim (natToBytes 32 k1.val) (natToBytes 32 k2.val)
    (natToBytes_length _ _) (natToBytes_length _ _)
    (natToBytes_bytes_lt _ _) (natToBytes_bytes_lt _ _) hKne _
    (Encrypt_ok _ _ _ (natToBytes_length _ _))
  have htageq : gcmTagNat (natToBytes 32 k2.val) (List.replicate 12 0) []
      = gcmTagNat (natToBytes 32 k1.val) (List.replicate 12 0) [] := by
    have := congrArg Fin.val hfeq
    simpa [f] using this.symm
  rw [decrypt_tag_collision _ _ _ (natToBytes_length _ _) (by simp) htageq] at he
  cases he


/-- C6 (amended): envelope round-trip.  For every plaintext, every 32-byte
key and every 12-byte nonce chosen at sealing, opening the sealed envelope
with the same key returns exactly the plaintext.  (Opening under a wrong
key fails exactly when the recomputed tag differs — which cannot hold for
all key pairs; see the counterexample.) -/
theorem C6_theorem (key nonce data env : List Nat) (hk : key.length = 32)
    (hkb : ∀ b ∈ key, b < 256) (hn : nonce.length = 12)
    (henv : Encrypt key nonce data = .ok env) :
    Decrypt key env = .ok data := by
  rw [Encrypt_ok key nonce data hk] at henv
  injection henv with henv
  rw [← henv]
  exact gcmSeal_roundtrip key nonce data hk hkb hn

/-- C6 witness: the round-trip at a concrete key, nonce and plaintext. -/
theorem C6_witness :
    Decrypt (List.replicate 32 0)
      (gcmSeal (List.replicate 32 0) (List.replicate 12 0) [1, 2, 3]) = .ok [1, 2, 3] :=
  C6_theorem _ _ _ _ (by simp) (by simp) (by simp) (Encrypt_ok _ _ _ (by simp))



/-- C8: machine-binding frame condition.  For every record created under
machine id M1, a validate call executed with a different current machine
id fails with `WrongMachine` and returns the file system unchanged — the
rejection happens before any mutation or save, so the on-disk file is
byte-identical to its state before the call. -/
theorem C8_theorem (md5Sum : List Nat → List Nat) (cm : CryptoManager)
    (encKey nonce : List Nat) (marshal : License → List Nat)
    (unmarshal : List Nat → Option License) (fs : FS)
    (filename currentPcId : String) (now : Now) (bytes data : List Nat) (lic : License)
    (hfile : fs filename = some bytes)
    (hdec : Decrypt encKey bytes = .ok data)
    (hparse : unmarshal data = some lic)
    (hpc : lic.PCId ≠ currentPcId) :
    readAndVerifyLicense md5Sum cm encKey nonce marshal unmarshal fs
      filename currentPcId now = (.error .wrongMachine, fs) := by
  simp only [readAndVerifyLicense, hfile, hdec, hparse, verifyCore, if_pos hpc]

/-- C8 witness: the wrong-machine rejection at a concrete store holding a
record bound to `PC-2`, validated from `PC-1`. -/
theorem C8_witness :
    readAndVerifyLicense wMd5 wCm wKey wNonce wMarshal
      (wUnmarshal { wLic with PCId := "PC-2" }) (wFS (gcmSeal wKey wNonce []))
      wFile "PC-1" ⟨"2025-01-01T08:00:00Z", "2025-01-01"⟩
      = (.error .wrongMachine, wFS (gcmSeal wKey wNonce [])) :=
  C8_theorem _ _ _ _ _ _ _ _ _ _ _ _ _
    (by simp [wFS])
    (gcmSeal_roundtrip wKey wNonce [] (by simp [wKey]) (by simp [wKey]) (by simp [wNonce]))
    rfl
    (by decide)


/-- C3 (counterexample): a persisted record that decrypts and parses,
whose machineId matches the current machine but whose stored serial
differs from the recomputed serial — and `View` nevertheless succeeds,
returning the record: the source's `View` never performs the serial
check the claim (and spec) describe. -/
theorem C3_counterexample :
    ({ wLic with Serial := "WRONG" } : License).Serial ≠
      GenerateSerial wMd5 wCm "PC-1" "Acme" 30 ∧
    View wKey (wUnmarshal { wLic with Serial := "WRONG" }) (wFS (gcmSeal wKey wNonce []))
      wFile "PC-1"
      = (.ok { wLic with Serial := "WRONG" }, wFS (gcmSeal wKey wNonce [])) := by
  constructor
  · decide
  · have hfs : (wFS (gcmSeal wKey wNonce [])) wFile = some (gcmSeal wKey wNonce []) := by
      simp [wFS]
    have hdec : Decrypt wKey (gcmSeal wKey wNonce []) = .ok [] :=
      gcmSeal_roundtrip wKey wNonce [] (by simp [wKey]) (by simp [wKey]) (by simp [wNonce])
    simp only [View, hfs, hdec, wUnmarshal]
    norm_num [wLic]

/-- C3 (amended): read-only inspection verifies the machine binding only —
no serial check.  For every persisted record that decrypts, parses and
matches the current machine, `View` returns the stored record unmodified
(any serial, matching or not) and performs no write: the file system
component of the result is the input file system itself. -/
theorem C3_theorem (encKey : List Nat) (unmarshal : List Nat → Option License) (fs : FS)
    (filename currentPcId : String) (bytes data : List Nat) (lic : License)
    (hfile : fs filename = some bytes)
    (hdec : Decrypt encKey bytes = .ok data)
    (hparse : unmarshal data = some lic)
    (hpc : lic.PCId = currentPcId) :
    View encKey unmarshal fs filename currentPcId = (.ok lic, fs) := by
  simp only [View, hfile, hdec, hparse]
  rw [if_neg (by simp [hpc])]

/-- C3 witness: a successful view of a concrete record (with its correct
serial), returning the record and the untouched file system. -/
theorem C3_witness :
    View wKey (wUnmarshal wLic) (wFS (gcmSeal wKey wNonce [])) wFile "PC-1"
      = (.ok wLic, wFS (gcmSeal wKey wNonce [])) :=
  C3_theorem _ _ _ _ _ _ _ _ (by simp [wFS])
    (gcmSeal_roundtrip wKey wNonce [] (by simp [wKey]) (by simp [wKey]) (by simp [wNonce]))
    rfl rfl

/-- C2: rollback law.  For every activated record with a non-empty
`lastUsedDate`, a validate call whose captured timestamp is strictly
earlier (lexicographically) than `lastUsedDate` fails with
`ClockRollbackDetected` and returns the file system unchanged: the
in-memory `runCount` increment is never saved, so the persisted record's
`runCount` and `usageHistory` are untouched. -/
theorem C2_theorem (md5Sum : List Nat → List Nat) (cm : CryptoManager)
    (encKey nonce : List Nat) (marshal : License → List Nat)
    (unmarshal : List Nat → Option License) (fs : FS)
    (filename currentPcId : String) (now : Now) (bytes data : List Nat) (lic : License)
    (hfile : fs filename = some bytes)
    (hdec : Decrypt encKey bytes = .ok data)
    (hparse : unmarshal data = some lic)
    (hpc : lic.PCId = currentPcId)
    (hserial : lic.Serial = GenerateSerial md5Sum cm currentPcId lic.ProductName lic.MaxDays)
    (hact : lic.IsActivated = true)
    (hne : lic.LastUsedDate ≠ "")
    (hroll : now.full < lic.LastUsedDate) :
    readAndVerifyLicense md5Sum cm encKey nonce marshal unmarshal fs
      filename currentPcId now = (.error .clockRollback, fs) := by
  have h1 : lic.LastUsedDate ≠ now.full := ne_of_gt hroll
  simp [readAndVerifyLicense, hfile, hdec, hparse, verifyCore, hpc, hserial, hact, h1,
    hne, hroll]

/-- C2 witness: the rollback rejection at a concrete activated record last
used on 2025-01-01, validated with a clock reading 2024-06-01. -/
theorem C2_witness :
    readAndVerifyLicense wMd5 wCm wKey wNonce wMarshal (wUnmarshal wLicAct)
      (wFS (gcmSeal wKey wNonce [])) wFile "PC-1" ⟨"2024-06-01T00:00:00Z", "2024-06-01"⟩
      = (.error .clockRollback, wFS (gcmSeal wKey wNonce [])) :=
  C2_theorem _ _ _ _ _ _ _ _ _ _ _ _ _
    (by simp [wFS])
    (gcmSeal_roundtrip wKey wNonce [] (by simp [wKey]) (by simp [wKey]) (by simp [wNonce]))
    rfl rfl rfl rfl (by decide)
    (by rw [String.lt_iff_toList_lt]; decide)


theorem gmul_zero_left (y : Nat) : gmul 0 y = 0 := by
  rw [gmul]
  have := foldl_inv (fun zv : Nat × Nat => zv.1 = 0)
    (fun (zv : Nat × Nat) i =>
      (if (0 : Nat).testBit (127 - i) then zv.1 ^^^ zv.2 else zv.1,
       if zv.2 % 2 = 1 then (zv.2 >>> 1) ^^^ gcmR else zv.2 >>> 1))
    (fun zv i hz => by simp [Nat.zero_testBit, hz])
    (List.range 128) (0, y) rfl
  exact this

theorem bytesToNat_replicate_zero : ∀ n : Nat, bytesToNat (List.replicate n 0) = 0 := by
  intro n
  induction n with
  | zero => rfl
  | succ k ih =>
    rw [List.replicate_succ]
    show bytesToNat (0 :: List.replicate k 0) = 0
    simpa [bytesToNat] using ih

theorem chunksAux_eq_of_ge (sz : Nat) (hsz : 0 < sz) :
    ∀ (f1 : Nat) (f2 : Nat) (l : List Nat), l.length ≤ f1 → l.length ≤ f2 →
      chunksAux sz f1 l = chunksAux sz f2 l := by
  intro f1
  induction f1 with
  | zero =>
    intro f2 l h1 h2
    have : l = [] := List.eq_nil_of_length_eq_zero (by omega)
    subst this
    cases f2 <;> rfl
  | succ k ih =>
    intro f2 l h1 h2
    cases l with
    | nil => cases f2 <;> rfl
    | cons a t =>
      cases f2 with
      | zero => simp at h2
      | succ k2 =>
        have h1' : t.length + 1 ≤ k + 1 := by simpa using h1
        have h2' : t.length + 1 ≤ k2 + 1 := by simpa using h2
        show (a :: t).take sz :: chunksAux sz k ((a :: t).drop sz)
            = (a :: t).take sz :: chunksAux sz k2 ((a :: t).drop sz)
        rw [ih k2 _ (by simp; omega) (by simp; omega)]

theorem chunksAux_succ (sz fuel : Nat) (a : Nat) (t : List Nat) :
    chunksAux sz (fuel + 1) (a :: t)
      = (a :: t).take sz :: chunksAux sz fuel ((a :: t).drop sz) := rfl

theorem chunks_cons_16 (L : List Nat) :
    chunks 16 (List.replicate 16 0 ++ L) = List.replicate 16 0 :: chunks 16 L := by
  rw [chunks]
  have hlen : (List.replicate 16 (0:Nat) ++ L).length = (L.length + 15) + 1 := by
    simp
  rw [hlen]
  rw [show List.replicate 16 (0:Nat) ++ L = 0 :: (List.replicate 15 0 ++ L) from rfl]
  rw [chunksAux_succ]
  rw [show (0 : Nat) :: (List.replicate 15 (0:Nat) ++ L) = List.replicate 16 0 ++ L from rfl]
  rw [List.take_left' (by simp), List.drop_left' (by simp)]
  rw [chunks, chunksAux_eq_of_ge 16 (by omega) (L.length + 15) L.length L (by omega) (le_refl _)]

theorem ghash_zero_head (h : Nat) :
    ∀ (k : Nat) (rest : List Nat),
      ghash h (List.replicate (16 * k) 0 ++ rest) = ghash h rest := by
  intro k
  induction k with
  | zero => intro rest; simp
  | succ j ih =>
    intro rest
    have hsplit : List.replicate (16 * (j + 1)) (0:Nat) = List.replicate 16 0 ++ List.replicate (16 * j) 0 := by
      rw [← List.replicate_add]
      congr 1
      ring
    rw [hsplit, List.append_assoc, ghash, chunks_cons_16]
    rw [List.foldl_cons]
    rw [bytesToNat_replicate_zero, Nat.xor_zero, gmul_zero_left]
    exact ih rest


theorem wTagRewrite :
    gcmTagNat wKey (List.replicate 12 0) (List.replicate 996 0)
      = ghash (bytesToNat (aesEncBlock wKey (List.replicate 16 0)))
          (natToBytes 16 (8 * 996)) ^^^
        bytesToNat (aesEncBlock wKey
          (natToBytes 16 (bytesToNat (List.replicate 12 0) * 4294967296 + 1))) := by
  rw [gcmTagNat]
  have hpad : padTo16 (List.replicate 996 (0:Nat)) = List.replicate (16 * 63) 0 := by
    rw [padTo16]
    simp only [List.length_replicate]
    rw [show ((16 - 996 % 16) % 16) = 12 from rfl]
    rw [← List.replicate_add]
  rw [hpad, List.length_replicate]
  rw [ghash_zero_head]

set_option maxRecDepth 8000 in
theorem wTagNe :
    natToBytes 16 (gcmTagNat wKey (List.replicate 12 0) (List.replicate 996 0))
      ≠ List.replicate 16 0 := by
  rw [wTagRewrite]
  decide

theorem wDecryptZeros :
    Decrypt wKey (List.replicate 1024 0) = .error "cipher: message authentication failed" := by
  rw [Decrypt]
  rw [if_neg (show ¬(wKey.length ≠ 32) by simp [wKey])]
  rw [if_neg (show ¬((List.replicate 1024 (0:Nat)).length < 12) by simp)]
  have h1 : (List.replicate 1024 (0:Nat)).take 12 = List.replicate 12 0 := by
    rw [List.take_replicate]
    norm_num
  have h2 : (List.replicate 1024 (0:Nat)).drop 12 = List.replicate 1012 0 := by
    rw [List.drop_replicate]
  rw [h1, h2]
  rw [if_neg (show ¬((List.replicate 1012 (0:Nat)).length < 16) by simp)]
  have h3 : (List.replicate 1012 (0:Nat)).take ((List.replicate 1012 (0:Nat)).length - 16)
      = List.replicate 996 0 := by
    rw [List.length_replicate, List.take_replicate]
    norm_num
  have h4 : (List.replicate 1012 (0:Nat)).drop ((List.replicate 1012 (0:Nat)).length - 16)
      = List.replicate 16 0 := by
    rw [List.length_replicate, List.drop_replicate]
  rw [h3, h4]
  rw [if_neg wTagNe]


/-- C7: revocation law.  Revoke on a path with no license file fails with
`NoSuchLicense` (not a no-op success); when the file exists, revoke
overwrites its entire contents with the 1024-byte block produced by the
random source, after which — the block failing envelope authentication,
which all but a `2^-128` fraction of random blocks do — both validate and
view fail with the corrupt-or-revoked outcome. -/
theorem C7_theorem (randBytes : Nat → List Nat) (md5Sum : List Nat → List Nat)
    (cm : CryptoManager) (encKey nonce : List Nat) (marshal : License → List Nat)
    (unmarshal : List Nat → Option License) (fs : FS)
    (filename currentPcId : String) (now : Now) (e : String)
    (hrand : (randBytes 1024).length = 1024)
    (_hkey : encKey.length = 32)
    (hfail : Decrypt encKey (randBytes 1024) = .error e) :
    (fs filename = none → Revoke randBytes fs filename = (.error .noSuchLicense, fs)) ∧
    (∀ bytes, fs filename = some bytes →
      Revoke randBytes fs filename = (.ok (), fsWrite fs filename (randBytes 1024)) ∧
      fsWrite fs filename (randBytes 1024) filename = some (randBytes 1024) ∧
      (randBytes 1024).length = 1024 ∧
      readAndVerifyLicense md5Sum cm encKey nonce marshal unmarshal
        (fsWrite fs filename (randBytes 1024)) filename currentPcId now
        = (.error .corruptOrRevoked, fsWrite fs filename (randBytes 1024)) ∧
      View encKey unmarshal (fsWrite fs filename (randBytes 1024)) filename currentPcId
        = (.error .corruptOrRevoked, fsWrite fs filename (randBytes 1024))) := by
  constructor
  · intro hnone
    simp [Revoke, hnone]
  · intro bytes hsome
    have hw : fsWrite fs filename (randBytes 1024) filename = some (randBytes 1024) := by
      simp [fsWrite]
    refine ⟨by simp [Revoke, hsome], hw, hrand, ?_, ?_⟩
    · simp only [readAndVerifyLicense, hw, hfail]
    · simp only [View, hw, hfail]

/-- C7 witness: revocation at a concrete store, with the all-zero
1024-byte block, which provably fails authentication. -/
theorem C7_witness :
    (Revoke (fun n => List.replicate n 0) (fun _ => none) wFile
      = (.error .noSuchLicense, fun _ => none)) ∧
    (Revoke (fun n => List.replicate n 0) (wFS []) wFile
      = (.ok (), fsWrite (wFS []) wFile (List.replicate 1024 0)) ∧
    fsWrite (wFS []) wFile (List.replicate 1024 0) wFile = some (List.replicate 1024 0) ∧
    (List.replicate 1024 (0:Nat)).length = 1024 ∧
    readAndVerifyLicense wMd5 wCm wKey wNonce wMarshal (wUnmarshal wLic)
      (fsWrite (wFS []) wFile (List.replicate 1024 0)) wFile "PC-1"
      ⟨"2025-01-01T08:00:00Z", "2025-01-01"⟩
      = (.error .corruptOrRevoked, fsWrite (wFS []) wFile (List.replicate 1024 0)) ∧
    View wKey (wUnmarshal wLic) (fsWrite (wFS []) wFile (List.replicate 1024 0)) wFile "PC-1"
      = (.error .corruptOrRevoked, fsWrite (wFS []) wFile (List.replicate 1024 0))) :=
  ⟨(C7_theorem (fun n => List.replicate n 0) wMd5 wCm wKey wNonce wMarshal (wUnmarshal wLic)
      (fun _ => none) wFile "PC-1" ⟨"2025-01-01T08:00:00Z", "2025-01-01"⟩ _
      (by simp) (by simp [wKey]) wDecryptZeros).1 rfl,
   (C7_theorem (fun n => List.replicate n 0) wMd5 wCm wKey wNonce wMarshal (wUnmarshal wLic)
      (wFS []) wFile "PC-1" ⟨"2025-01-01T08:00:00Z", "2025-01-01"⟩ _
      (by simp) (by simp [wKey]) wDecryptZeros).2 [] (by simp [wFS, wFile])⟩


theorem verifyCore_same_day (md5Sum : List Nat → List Nat) (cm : CryptoManager)
    (currentPcId : String) (lic : License) (m1 : List (String × Bool)) (n1 : Now)
    (hpc : lic.PCId = currentPcId)
    (hserial : lic.Serial = GenerateSerial md5Sum cm currentPcId lic.ProductName lic.MaxDays)
    (hact : lic.IsActivated = true)
    (hmap : lic.UsageMap = some m1)
    (hlt1 : lic.LastUsedDate < n1.full)
    (hused1 : mapGet m1 n1.day = true)
    (hexp1 : ¬(lic.IsLifetime = false ∧ (lic.UsageHistory.length : Int) > lic.MaxDays)) :
    verifyCore md5Sum cm lic currentPcId n1
      = .ok { lic with RunCount := lic.RunCount + 1, LastUsedDate := n1.full } := by
  have hne1 : lic.LastUsedDate ≠ n1.full := ne_of_lt hlt1
  have hngt1 : ¬(lic.LastUsedDate > n1.full) := lt_asymm hlt1
  simp [verifyCore, hpc, hserial, hact, hmap, hne1, hngt1, hused1, hexp1]

theorem verifyCore_new_day (md5Sum : List Nat → List Nat) (cm : CryptoManager)
    (currentPcId : String) (lic : License) (m1 : List (String × Bool)) (n2 : Now)
    (hpc : lic.PCId = currentPcId)
    (hserial : lic.Serial = GenerateSerial md5Sum cm currentPcId lic.ProductName lic.MaxDays)
    (hact : lic.IsActivated = true)
    (hmap : lic.UsageMap = some m1)
    (hlt2 : lic.LastUsedDate < n2.full)
    (hused2 : mapGet m1 n2.day = false)
    (hexp2 : ¬(lic.IsLifetime = false ∧ ((lic.UsageHistory.length : Int) + 1) > lic.MaxDays)) :
    verifyCore md5Sum cm lic currentPcId n2
      = .ok { lic with
              RunCount := lic.RunCount + 1, LastUsedDate := n2.full,
              UsageHistory := lic.UsageHistory ++ [n2.day],
              UsageMap := some (mapSet m1 n2.day true) } := by
  have hne2 : lic.LastUsedDate ≠ n2.full := ne_of_lt hlt2
  have hngt2 : ¬(lic.LastUsedDate > n2.full) := lt_asymm hlt2
  simp [verifyCore, hpc, hserial, hact, hmap, hne2, hngt2, hused2]
  intro hl
  exact not_lt.mp (fun hb => hexp2 ⟨hl, hb⟩)

/-- C5: same-day revalidation.  For an activated record last used earlier
on the same calendar day, a second validate call increments `runCount` by
exactly 1, leaves `usageHistory` unchanged, and updates `lastUsedDate` to
the new timestamp; a subsequent validate call on a new, later calendar day
appends that day to the end of `usageHistory`. -/
theorem C5_theorem (md5Sum : List Nat → List Nat) (cm : CryptoManager)
    (currentPcId : String) (lic : License) (m1 : List (String × Bool)) (n1 n2 : Now)
    (hpc : lic.PCId = currentPcId)
    (hserial : lic.Serial = GenerateSerial md5Sum cm currentPcId lic.ProductName lic.MaxDays)
    (hact : lic.IsActivated = true)
    (hmap : lic.UsageMap = some m1)
    (hlt1 : lic.LastUsedDate < n1.full)
    (hused1 : mapGet m1 n1.day = true)
    (hexp1 : ¬(lic.IsLifetime = false ∧ (lic.UsageHistory.length : Int) > lic.MaxDays))
    (hlt2 : n1.full < n2.full)
    (hused2 : mapGet m1 n2.day = false)
    (hexp2 : ¬(lic.IsLifetime = false ∧ ((lic.UsageHistory.length : Int) + 1) > lic.MaxDays)) :
    verifyCore md5Sum cm lic currentPcId n1
      = .ok { lic with RunCount := lic.RunCount + 1, LastUsedDate := n1.full } ∧
    verifyCore md5Sum cm { lic with RunCount := lic.RunCount + 1, LastUsedDate := n1.full }
      currentPcId n2
      = .ok { lic with
              RunCount := lic.RunCount + 2, LastUsedDate := n2.full,
              UsageHistory := lic.UsageHistory ++ [n2.day],
              UsageMap := some (mapSet m1 n2.day true) } := by
  constructor
  · exact verifyCore_same_day md5Sum cm currentPcId lic m1 n1
      hpc hserial hact hmap hlt1 hused1 hexp1
  · have h2 := verifyCore_new_day md5Sum cm currentPcId
      { lic with RunCount := lic.RunCount + 1, LastUsedDate := n1.full } m1 n2
      hpc hserial hact hmap hlt2 hused2 hexp2
    rw [h2]
    have hrc : lic.RunCount + 1 + 1 = lic.RunCount + 2 := by omega
    simp [hrc]


/-- C5 witness: the two transitions at a concrete activated record —
a same-day revalidation followed by a new-day validation. -/
theorem C5_witness :
    verifyCore wMd5 wCm wLicAct "PC-1" ⟨"2025-01-01T09:00:00Z", "2025-01-01"⟩
      = .ok { wLicAct with
              RunCount := wLicAct.RunCount + 1, LastUsedDate := "2025-01-01T09:00:00Z" } ∧
    verifyCore wMd5 wCm
      { wLicAct with
        RunCount := wLicAct.RunCount + 1, LastUsedDate := "2025-01-01T09:00:00Z" }
      "PC-1" ⟨"2025-01-02T08:00:00Z", "2025-01-02"⟩
      = .ok { wLicAct with
              RunCount := wLicAct.RunCount + 2, LastUsedDate := "2025-01-02T08:00:00Z",
              UsageHistory := wLicAct.UsageHistory ++ ["2025-01-02"],
              UsageMap := some (mapSet [("2024-12-31", true), ("2025-01-01", true)]
                "2025-01-02" true) } :=
  C5_theorem wMd5 wCm "PC-1" wLicAct [("2024-12-31", true), ("2025-01-01", true)]
    ⟨"2025-01-01T09:00:00Z", "2025-01-01"⟩ ⟨"2025-01-02T08:00:00Z", "2025-01-02"⟩
    rfl rfl rfl rfl (by rw [String.lt_iff_toList_lt]; decide) (by decide) (by decide)
    (by rw [String.lt_iff_toList_lt]; decide) (by decide) (by decide)


theorem mapGet_eq_true_iff (m : List (String × Bool)) (hval : ∀ p ∈ m, p.2 = true)
    (k : String) : mapGet m k = true ↔ k ∈ m.map Prod.fst := by
  induction m with
  | nil => simp [mapGet]
  | cons p t ih =>
    by_cases hk : p.1 = k
    · simp [mapGet, List.find?_cons, hk, hval p (by simp)]
    · have hbeq : (p.1 == k) = false := by simp [hk]
      rw [mapGet, List.find?_cons, hbeq]
      simp only [List.map_cons, List.mem_cons]
      rw [← mapGet]
      rw [ih (fun q hq => hval q (by simp [hq]))]
      constructor
      · intro h; exact Or.inr h
      · rintro (h | h)
        · exact absurd h.symm hk
        · exact h

theorem mapSet_not_mem (m : List (String × Bool)) (k : String) (v : Bool)
    (h : k ∉ m.map Prod.fst) : mapSet m k v = m ++ [(k, v)] := by
  rw [mapSet, if_neg]
  intro hany
  rw [List.any_eq_true] at hany
  obtain ⟨p, hp, hpk⟩ := hany
  exact h (List.mem_map.mpr ⟨p, hp, by simpa using hpk⟩)

theorem mapRebuild_eq :
    ∀ (l : List String) (acc : List (String × Bool)),
      (∀ d ∈ l, d ∉ acc.map Prod.fst) → l.Nodup →
      l.foldl (fun m date => mapSet m date true) acc
        = acc ++ l.map (fun d => (d, true)) := by
  intro l
  induction l with
  | nil => intro acc _ _; simp
  | cons d t ih =>
    intro acc hdisj hnd
    rw [List.foldl_cons, mapSet_not_mem _ _ _ (hdisj d (by simp))]
    rw [ih (acc ++ [(d, true)]) ?_ (by exact (List.nodup_cons.mp hnd).2)]
    · simp
    · intro x hx
      simp only [List.map_append, List.mem_append]
      rintro (h | h)
      · exact hdisj x (by simp [hx]) h
      · simp at h
        subst h
        exact (List.nodup_cons.mp hnd).1 hx

theorem sync_length (lic : License) (hs : UsageMapSync lic) :
    ∀ m, lic.UsageMap = some m → m.length = lic.UsageHistory.length := by
  intro m hm
  have hperm := (hs.2 m hm).1
  have := hperm.length_eq
  simpa [List.length_map] using this


theorem map_fst_map_pair (l : List String) :
    (l.map (fun d => (d, true))).map Prod.fst = l := by
  induction l with
  | nil => rfl
  | cons a t ih => simp [ih]

theorem map_fst_comp_pair (l : List String) :
    List.map (Prod.fst ∘ fun d => (d, true)) l = l := by
  induction l with
  | nil => rfl
  | cons a t ih => simp [ih]

theorem verifyCore_preserves_sync (md5Sum : List Nat → List Nat) (cm : CryptoManager)
    (lic : License) (pc : String) (now : Now) (lic' : License)
    (hsync : UsageMapSync lic)
    (hok : verifyCore md5Sum cm lic pc now = .ok lic') :
    UsageMapSync lic' ∧ ∀ m, lic'.UsageMap = some m → m.length = lic'.UsageHistory.length := by
  have hsl := sync_length lic hsync
  obtain ⟨hnd, hmapinv⟩ := hsync
  by_cases h1 : lic.PCId ≠ pc
  · simp [verifyCore, h1] at hok
  by_cases h2 : lic.Serial ≠ GenerateSerial md5Sum cm pc lic.ProductName lic.MaxDays
  · simp [verifyCore, h1, h2] at hok
  by_cases h3 : lic.IsActivated = false
  · simp only [verifyCore, if_neg h1, if_neg h2, if_pos h3] at hok
    split at hok
    · cases hok
    · injection hok with hok
      subst hok
      refine ⟨⟨by simp, ?_⟩, ?_⟩
      · intro m hm
        simp only [Option.some.injEq] at hm
        subst hm
        exact ⟨by simp, by simp⟩
      · intro m hm
        simp only [Option.some.injEq] at hm
        subst hm
        simp
  · simp only [verifyCore, if_neg h1, if_neg h2, if_neg h3] at hok
    by_cases h4 : lic.LastUsedDate ≠ "" ∧ lic.LastUsedDate = now.full
    · simp only [if_pos h4] at hok
      injection hok with hok
      subst hok
      refine ⟨⟨by simpa using hnd, ?_⟩, ?_⟩
      · intro m hm
        simp only at hm
        exact hmapinv m hm
      · intro m hm
        simp only at hm
        simpa using hsl m hm
    · by_cases h5 : lic.LastUsedDate ≠ "" ∧ lic.LastUsedDate > now.full
      · simp only [if_neg h4, if_pos h5] at hok
        cases hok
      · simp only [if_neg h4, if_neg h5] at hok
        rcases hum : lic.UsageMap with _ | m
        · simp only [hum] at hok
          rw [show ({ lic with RunCount := lic.RunCount + 1 } : License).UsageHistory
              = lic.UsageHistory from rfl] at hok
          rw [mapRebuild_eq lic.UsageHistory [] (by simp) hnd] at hok
          simp only [List.nil_append] at hok
          have hkeys : (lic.UsageHistory.map (fun d => (d, true))).map Prod.fst
              = lic.UsageHistory := map_fst_map_pair _
          by_cases h6 : mapGet (lic.UsageHistory.map (fun d => (d, true))) now.day = false
          · have hnot : now.day ∉ lic.UsageHistory := by
              intro hmem
              have := (mapGet_eq_true_iff (lic.UsageHistory.map (fun d => (d, true)))
                (fun p hp => by obtain ⟨d, _, rfl⟩ := List.mem_map.mp hp; rfl)
                now.day).mpr (by rw [hkeys]; exact hmem)
              rw [h6] at this
              cases this
            rw [mapSet_not_mem _ _ _ (by rw [hkeys]; exact hnot)] at hok
            simp only [h6, if_true, eq_self_iff_true, ite_true] at hok
            split at hok
            · cases hok
            · injection hok with hok
              subst hok
              refine ⟨⟨?_, ?_⟩, ?_⟩
              · simp [List.nodup_append, hnd, hnot]
              · intro m hm
                simp only [Option.some.injEq] at hm
                subst hm
                constructor
                · simp only [List.map_append, List.map_map, map_fst_comp_pair]
                  simp
                · intro p hp
                  rcases List.mem_append.mp hp with hp | hp
                  · obtain ⟨d, _, rfl⟩ := List.mem_map.mp hp
                    rfl
                  · simp only [List.mem_singleton] at hp
                    subst hp
                    rfl
              · intro m hm
                simp only [Option.some.injEq] at hm
                subst hm
                simp
          · simp only [if_neg h6] at hok
            split at hok
            · cases hok
            · injection hok with hok
              subst hok
              refine ⟨⟨by simpa using hnd, ?_⟩, ?_⟩
              · intro m hm
                simp only [Option.some.injEq] at hm
                subst hm
                refine ⟨?_, fun p hp => by obtain ⟨d, _, rfl⟩ := List.mem_map.mp hp; rfl⟩
                rw [map_fst_map_pair]
              · intro m hm
                simp only [Option.some.injEq] at hm
                subst hm
                simp
        · simp only [hum] at hok
          obtain ⟨hperm, hval⟩ := hmapinv m hum
          by_cases h6 : mapGet m now.day = false
          · have hnotkeys : now.day ∉ m.map Prod.fst := by
              intro hmem
              have := (mapGet_eq_true_iff m hval now.day).mpr hmem
              rw [h6] at this
              cases this
            have hnot : now.day ∉ lic.UsageHistory := fun hmem =>
              hnotkeys (hperm.mem_iff.mpr hmem)
            rw [mapSet_not_mem _ _ _ hnotkeys] at hok
            simp only [h6, if_true, eq_self_iff_true, ite_true] at hok
            split at hok
            · cases hok
            · injection hok with hok
              subst hok
              refine ⟨⟨?_, ?_⟩, ?_⟩
              · simp [List.nodup_append, hnd, hnot]
              · intro m' hm'
                simp only [Option.some.injEq] at hm'
                subst hm'
                constructor
                · simp only [List.map_append]
                  exact List.Perm.append hperm (List.Perm.refl _)
                · intro p hp
                  rcases List.mem_append.mp hp with hp | hp
                  · exact hval p hp
                  · simp only [List.mem_singleton] at hp
                    subst hp
                    rfl
              · intro m' hm'
                simp only [Option.some.injEq] at hm'
                subst hm'
                simp [hsl m hum]
          · simp only [if_neg h6] at hok
            split at hok
            · cases hok
            · injection hok with hok
              subst hok
              refine ⟨⟨by simpa using hnd, ?_⟩, ?_⟩
              · intro m' hm'
                simp only [Option.some.injEq] at hm'
                subst hm'
                exact ⟨hperm, hval⟩
              · intro m' hm'
                simp only [Option.some.injEq] at hm'
                subst hm'
                simpa using hsl m hum


/-- C9: usageMap synchronization invariant.  Creation establishes, and
every successful validate transition preserves (including the map-rebuild
compatibility path for records lacking `usageMap`), the invariant that the
usage history holds distinct days and the map mirrors it — in particular
`len(usageHistory)` equals the size of `usageMap` whenever it is present. -/
theorem C9_theorem (md5Sum : List Nat → List Nat) (cm : CryptoManager) (cfg : Config)
    (pcid : String) (req : CreateLicenseRequest) (createdAt : String) :
    (UsageMapSync (mkLicense md5Sum cm cfg pcid req createdAt) ∧
      ∀ m, (mkLicense md5Sum cm cfg pcid req createdAt).UsageMap = some m →
        m.length = (mkLicense md5Sum cm cfg pcid req createdAt).UsageHistory.length) ∧
    (∀ (lic : License) (pc : String) (now : Now) (lic' : License),
      UsageMapSync lic → verifyCore md5Sum cm lic pc now = .ok lic' →
      UsageMapSync lic' ∧
        ∀ m, lic'.UsageMap = some m → m.length = lic'.UsageHistory.length) := by
  constructor
  · constructor
    · refine ⟨by simp [mkLicense], ?_⟩
      intro m hm
      simp only [mkLicense, Option.some.injEq] at hm
      subst hm
      simp [mkLicense]
    · intro m hm
      simp only [mkLicense, Option.some.injEq] at hm
      subst hm
      simp [mkLicense]
  · intro lic pc now lic' hs hok
    exact verifyCore_preserves_sync md5Sum cm lic pc now lic' hs hok

/-- C9 witness: the invariant at a concrete created record and after a
concrete same-day validate transition. -/
theorem C9_witness :
    (UsageMapSync (mkLicense wMd5 wCm ⟨30, 99999⟩ "PC-1" ⟨"Acme", 30, false⟩ "") ∧
      ∀ m, (mkLicense wMd5 wCm ⟨30, 99999⟩ "PC-1" ⟨"Acme", 30, false⟩ "").UsageMap = some m →
        m.length
          = (mkLicense wMd5 wCm ⟨30, 99999⟩ "PC-1" ⟨"Acme", 30, false⟩ "").UsageHistory.length) ∧
    (UsageMapSync { wLicAct with
        RunCount := 6, LastUsedDate := "2025-01-01T10:00:00Z" } ∧
      ∀ m, ({ wLicAct with
          RunCount := 6, LastUsedDate := "2025-01-01T10:00:00Z" } : License).UsageMap = some m →
        m.length = ({ wLicAct with
          RunCount := 6, LastUsedDate := "2025-01-01T10:00:00Z" } : License).UsageHistory.length) :=
  ⟨(C9_theorem wMd5 wCm ⟨30, 99999⟩ "PC-1" ⟨"Acme", 30, false⟩ "").1,
   (C9_theorem wMd5 wCm ⟨30, 99999⟩ "PC-1" ⟨"Acme", 30, false⟩ "").2 wLicAct "PC-1"
     ⟨"2025-01-01T10:00:00Z", "2025-01-01"⟩
     { wLicAct with RunCount := 6, LastUsedDate := "2025-01-01T10:00:00Z" }
     ⟨by decide, fun m hm => by
        injection hm with h
        subst h
        exact ⟨(show List.map Prod.fst [("2024-12-31", true), ("2025-01-01", true)]
            = ["2024-12-31", "2025-01-01"] from rfl) ▸ List.Perm.refl _, by decide⟩⟩
     (verifyCore_same_day wMd5 wCm "PC-1" wLicAct
       [("2024-12-31", true), ("2025-01-01", true)]
       ⟨"2025-01-01T10:00:00Z", "2025-01-01"⟩ rfl rfl rfl rfl
       (by rw [String.lt_iff_toList_lt]; decide) (by decide) (by decide))⟩


theorem verifyCore_activation_ok (md5Sum : List Nat → List Nat) (cm : CryptoManager)
    (pc : String) (lic : License) (n : Now)
    (hpc : lic.PCId = pc)
    (hserial : lic.Serial = GenerateSerial md5Sum cm pc lic.ProductName lic.MaxDays)
    (hact : lic.IsActivated = false)
    (hexp : ¬(lic.IsLifetime = false ∧ (1 : Int) > lic.MaxDays)) :
    verifyCore md5Sum cm lic pc n
      = .ok { lic with
              IsActivated := true, FirstRunDate := n.full, LastUsedDate := n.full,
              RunCount := 1, UsageHistory := [n.day], UsageMap := some [(n.day, true)] } := by
  simp [verifyCore, hpc, hserial, hact]
  intro hl
  exact not_lt.mp (fun hb => hexp ⟨hl, by simpa using hb⟩)

theorem verifyCore_activation_expired (md5Sum : List Nat → List Nat) (cm : CryptoManager)
    (pc : String) (lic : License) (n : Now)
    (hpc : lic.PCId = pc)
    (hserial : lic.Serial = GenerateSerial md5Sum cm pc lic.ProductName lic.MaxDays)
    (hact : lic.IsActivated = false)
    (hlife : lic.IsLifetime = false)
    (hexp : (1 : Int) > lic.MaxDays) :
    verifyCore md5Sum cm lic pc n = .error .licenseExpired := by
  simp [verifyCore, hpc, hserial, hact, hlife]
  exact hexp

theorem verifyCore_new_day_expired (md5Sum : List Nat → List Nat) (cm : CryptoManager)
    (pc : String) (lic : License) (m1 : List (String × Bool)) (n : Now)
    (hpc : lic.PCId = pc)
    (hserial : lic.Serial = GenerateSerial md5Sum cm pc lic.ProductName lic.MaxDays)
    (hact : lic.IsActivated = true)
    (hmap : lic.UsageMap = some m1)
    (hlt : lic.LastUsedDate < n.full)
    (hused : mapGet m1 n.day = false)
    (hlife : lic.IsLifetime = false)
    (hexp : ((lic.UsageHistory.length : Int) + 1) > lic.MaxDays) :
    verifyCore md5Sum cm lic pc n = .error .licenseExpired := by
  have hne : lic.LastUsedDate ≠ n.full := ne_of_lt hlt
  have hngt : ¬(lic.LastUsedDate > n.full) := lt_asymm hlt
  simp [verifyCore, hpc, hserial, hact, hmap, hne, hngt, hused, hlife]
  omega

theorem runValidates_cons_ok (md5Sum : List Nat → List Nat) (cm : CryptoManager)
    (pc : String) (lic lic1 : License) (n : Now) (rest : List Now)
    (h : verifyCore md5Sum cm lic pc n = .ok lic1) :
    runValidates md5Sum cm pc lic (n :: rest) = runValidates md5Sum cm pc lic1 rest := by
  simp [runValidates, h]

theorem runValidates_cons_err (md5Sum : List Nat → List Nat) (cm : CryptoManager)
    (pc : String) (lic : License) (n : Now) (rest : List Now) (e : VErr)
    (h : verifyCore md5Sum cm lic pc n = .error e) :
    runValidates md5Sum cm pc lic (n :: rest) = .error e := by
  simp [runValidates, h]


theorem runValidates_ok (md5Sum : List Nat → List Nat) (cm : CryptoManager) (pc : String) :
    ∀ (nows : List Now) (lic : License),
      lic.PCId = pc →
      lic.Serial = GenerateSerial md5Sum cm pc lic.ProductName lic.MaxDays →
      lic.IsActivated = true →
      lic.UsageMap = some (lic.UsageHistory.map (fun d => (d, true))) →
      (lic.LastUsedDate :: nows.map Now.full).Chain' (· < ·) →
      (lic.UsageHistory ++ nows.map Now.day).Nodup →
      lic.IsLifetime = false →
      (lic.UsageHistory.length : Int) + nows.length ≤ lic.MaxDays →
      ∃ lic', runValidates md5Sum cm pc lic nows = .ok lic' ∧
        lic'.UsageHistory = lic.UsageHistory ++ nows.map Now.day := by
  intro nows
  induction nows with
  | nil =>
    intro lic hpc hserial hact hmap hchain hnd hlife hbound
    exact ⟨lic, rfl, by simp⟩
  | cons n rest ih =>
    intro lic hpc hserial hact hmap hchain hnd hlife hbound
    simp only [List.map_cons] at hchain hnd
    have hlt : lic.LastUsedDate < n.full := (List.chain'_cons.mp hchain).1
    have hnotmem : n.day ∉ lic.UsageHistory := by
      intro hmem
      rcases List.nodup_append.mp hnd with ⟨_, _, hdisj⟩
      exact hdisj hmem (by simp)
    have hused : mapGet (lic.UsageHistory.map (fun d => (d, true))) n.day = false := by
      rcases Bool.eq_false_or_eq_true (mapGet (lic.UsageHistory.map (fun d => (d, true))) n.day)
        with h | h
      · exact absurd (by
          have := (mapGet_eq_true_iff _
            (fun p hp => by obtain ⟨d, _, rfl⟩ := List.mem_map.mp hp; rfl) n.day).mp h
          rwa [map_fst_map_pair] at this) hnotmem
      · exact h
    have hexp : ¬(lic.IsLifetime = false ∧ ((lic.UsageHistory.length : Int) + 1) > lic.MaxDays) := by
      rintro ⟨-, hgt⟩
      simp only [List.length_cons] at hbound
      push_cast at hbound
      omega
    have hstep := verifyCore_new_day md5Sum cm pc lic
      (lic.UsageHistory.map (fun d => (d, true))) n hpc hserial hact hmap hlt hused hexp
    rw [runValidates_cons_ok md5Sum cm pc lic _ n rest hstep]
    have hmapset : mapSet (lic.UsageHistory.map (fun d => (d, true))) n.day true
        = (lic.UsageHistory ++ [n.day]).map (fun d => (d, true)) := by
      rw [mapSet_not_mem _ _ _ (by rw [map_fst_map_pair]; exact hnotmem)]
      simp
    obtain ⟨lic', hrun, hhist⟩ := ih
      { lic with
        RunCount := lic.RunCount + 1, LastUsedDate := n.full,
        UsageHistory := lic.UsageHistory ++ [n.day],
        UsageMap := some (mapSet (lic.UsageHistory.map (fun d => (d, true))) n.day true) }
      hpc hserial hact (by simp only [hmapset]) (by exact (List.chain'_cons.mp hchain).2)
      (by simpa using hnd) hlife
      (by simp only [List.length_cons] at hbound; simp; push_cast at hbound; omega)
    refine ⟨lic', hrun, ?_⟩
    rw [hhist]
    simp


theorem runValidates_expired (md5Sum : List Nat → List Nat) (cm : CryptoManager) (pc : String) :
    ∀ (nows : List Now) (lic : License), nows ≠ [] →
      lic.PCId = pc →
      lic.Serial = GenerateSerial md5Sum cm pc lic.ProductName lic.MaxDays →
      lic.IsActivated = true →
      lic.UsageMap = some (lic.UsageHistory.map (fun d => (d, true))) →
      (lic.LastUsedDate :: nows.map Now.full).Chain' (· < ·) →
      (lic.UsageHistory ++ nows.map Now.day).Nodup →
      lic.IsLifetime = false →
      (lic.UsageHistory.length : Int) + nows.length = lic.MaxDays + 1 →
      runValidates md5Sum cm pc lic nows = .error .licenseExpired := by
  intro nows
  induction nows with
  | nil => intro lic hne; exact absurd rfl hne
  | cons n rest ih =>
    intro lic _ hpc hserial hact hmap hchain hnd hlife hbound
    simp only [List.map_cons] at hchain hnd
    have hlt : lic.LastUsedDate < n.full := (List.chain'_cons.mp hchain).1
    have hnotmem : n.day ∉ lic.UsageHistory := by
      intro hmem
      rcases List.nodup_append.mp hnd with ⟨-, -, hdisj⟩
      exact hdisj hmem (by simp)
    have hused : mapGet (lic.UsageHistory.map (fun d => (d, true))) n.day = false := by
      rcases Bool.eq_false_or_eq_true (mapGet (lic.UsageHistory.map (fun d => (d, true))) n.day)
        with h | h
      · exact absurd (by
          have := (mapGet_eq_true_iff _
            (fun p hp => by obtain ⟨d, _, rfl⟩ := List.mem_map.mp hp; rfl) n.day).mp h
          rwa [map_fst_map_pair] at this) hnotmem
      · exact h
    cases rest with
    | nil =>
      have hexp : ((lic.UsageHistory.length : Int) + 1) > lic.MaxDays := by
        simp only [List.length_cons, List.length_nil] at hbound
        push_cast at hbound
        omega
      exact runValidates_cons_err md5Sum cm pc lic n [] _
        (verifyCore_new_day_expired md5Sum cm pc lic _ n hpc hserial hact hmap hlt hused
          hlife hexp)
    | cons n2 rest2 =>
      have hexp : ¬(lic.IsLifetime = false ∧
          ((lic.UsageHistory.length : Int) + 1) > lic.MaxDays) := by
        rintro ⟨-, hgt⟩
        simp only [List.length_cons] at hbound
        push_cast at hbound
        omega
      have hstep := verifyCore_new_day md5Sum cm pc lic
        (lic.UsageHistory.map (fun d => (d, true))) n hpc hserial hact hmap hlt hused hexp
      rw [runValidates_cons_ok md5Sum cm pc lic _ n (n2 :: rest2) hstep]
      have hmapset : mapSet (lic.UsageHistory.map (fun d => (d, true))) n.day true
          = (lic.UsageHistory ++ [n.day]).map (fun d => (d, true)) := by
        rw [mapSet_not_mem _ _ _ (by rw [map_fst_map_pair]; exact hnotmem)]
        simp
      exact ih
        { lic with
          RunCount := lic.RunCount + 1, LastUsedDate := n.full,
          UsageHistory := lic.UsageHistory ++ [n.day],
          UsageMap := some (mapSet (lic.UsageHistory.map (fun d => (d, true))) n.day true) }
        (by simp) hpc hserial hact (by simp only [hmapset])
        (by exact (List.chain'_cons.mp hchain).2)
        (by simpa using hnd) hlife
        (by simp only [List.length_cons] at hbound; simp; push_cast at hbound; omega)


/-- C1: exactly-N-days law.  For a non-lifetime record with `maxDays = N`
that passes the machine and serial checks, validated on `N + 1` calendar
days with pairwise-distinct day strings and strictly increasing
timestamps: every prefix of at most `N` validations succeeds, and the run
including the `(N+1)`-th distinct day fails with `LicenseExpired` — the
expiration check compares `len(usageHistory) > maxDays` after the day is
appended, so exactly `N` distinct days are usable. -/
theorem C1_theorem (md5Sum : List Nat → List Nat) (cm : CryptoManager) (pc : String)
    (lic : License) (N : Nat) (nows : List Now)
    (hpc : lic.PCId = pc)
    (hserial : lic.Serial = GenerateSerial md5Sum cm pc lic.ProductName lic.MaxDays)
    (hact : lic.IsActivated = false)
    (hlife : lic.IsLifetime = false)
    (hmax : lic.MaxDays = (N : Int))
    (hlen : nows.length = N + 1)
    (hchain : (nows.map Now.full).Chain' (· < ·))
    (hdays : (nows.map Now.day).Nodup) :
    (∀ k ≤ N, ∃ lic', runValidates md5Sum cm pc lic (nows.take k) = .ok lic') ∧
    runValidates md5Sum cm pc lic nows = .error .licenseExpired := by
  cases nows with
  | nil => simp at hlen
  | cons n rest =>
    have hrestlen : rest.length = N := by simpa using hlen
    simp only [List.map_cons] at hchain hdays
    by_cases hN : N = 0
    · subst hN
      constructor
      · intro k hk
        rw [Nat.le_zero.mp hk]
        exact ⟨lic, rfl⟩
      · exact runValidates_cons_err md5Sum cm pc lic n rest _
          (verifyCore_activation_expired md5Sum cm pc lic n hpc hserial hact hlife
            (by rw [hmax]; norm_num))
    · have hexpact : ¬(lic.IsLifetime = false ∧ (1 : Int) > lic.MaxDays) := by
        rintro ⟨-, h⟩
        rw [hmax] at h
        omega
      have hstep := verifyCore_activation_ok md5Sum cm pc lic n hpc hserial hact hexpact
      constructor
      · intro k hk
        cases k with
        | zero => exact ⟨lic, rfl⟩
        | succ j =>
          rw [List.take_succ_cons]
          rw [runValidates_cons_ok md5Sum cm pc lic _ n (rest.take j) hstep]
          obtain ⟨lic', hrun, -⟩ := runValidates_ok md5Sum cm pc (rest.take j)
            { lic with
              IsActivated := true, FirstRunDate := n.full, LastUsedDate := n.full,
              RunCount := 1, UsageHistory := [n.day], UsageMap := some [(n.day, true)] }
            hpc hserial rfl rfl
            (by
              have := hchain.take (j + 1)
              simpa [List.map_take] using this)
            (by
              have hsub : (n.day :: (rest.take j).map Now.day).Sublist
                  (n.day :: rest.map Now.day) := by
                rw [List.map_take]
                exact (List.take_sublist j (rest.map Now.day)).cons₂ n.day
              simpa using hdays.sublist hsub)
            hlife
            (by
              have hj : j + 1 ≤ N := hk
              have hlen' : (rest.take j).length = j := by
                rw [List.length_take, hrestlen]
                omega
              simp only [hlen', hmax, List.length_singleton]
              push_cast
              omega)
          exact ⟨lic', hrun⟩
      · rw [runValidates_cons_ok md5Sum cm pc lic _ n rest hstep]
        exact runValidates_expired md5Sum cm pc rest
          { lic with
            IsActivated := true, FirstRunDate := n.full, LastUsedDate := n.full,
            RunCount := 1, UsageHistory := [n.day], UsageMap := some [(n.day, true)] }
          (by
            intro h
            rw [h] at hrestlen
            exact hN (by simpa using hrestlen.symm))
          hpc hserial rfl rfl (by exact hchain) (by simpa using hdays) hlife
          (by
            simp only [hrestlen, hmax, List.length_singleton]
            push_cast
            omega)


/-- C1 witness: a two-day license validated on three concrete distinct
days — the first two runs succeed, the third fails expired. -/
theorem C1_witness :
    (∀ k ≤ 2, ∃ lic', runValidates wMd5 wCm "PC-1" wLic2
      ([⟨"2025-01-01T08:00:00Z", "2025-01-01"⟩, ⟨"2025-01-02T08:00:00Z", "2025-01-02"⟩,
        ⟨"2025-01-03T08:00:00Z", "2025-01-03"⟩].take k) = .ok lic') ∧
    runValidates wMd5 wCm "PC-1" wLic2
      [⟨"2025-01-01T08:00:00Z", "2025-01-01"⟩, ⟨"2025-01-02T08:00:00Z", "2025-01-02"⟩,
       ⟨"2025-01-03T08:00:00Z", "2025-01-03"⟩] = .error .licenseExpired :=
  C1_theorem wMd5 wCm "PC-1" wLic2 2
    [⟨"2025-01-01T08:00:00Z", "2025-01-01"⟩, ⟨"2025-01-02T08:00:00Z", "2025-01-02"⟩,
     ⟨"2025-01-03T08:00:00Z", "2025-01-03"⟩]
    rfl rfl rfl rfl rfl rfl
    (by
      show List.Chain' (· < ·)
        ["2025-01-01T08:00:00Z", "2025-01-02T08:00:00Z", "2025-01-03T08:00:00Z"]
      refine List.chain'_cons.mpr ⟨?_, List.chain'_cons.mpr ⟨?_, ?_⟩⟩
      · rw [String.lt_iff_toList_lt]
        decide
      · rw [String.lt_iff_toList_lt]
        decide
      · exact List.chain'_singleton _)
    (by decide)


end LicenseManager
